import Mathlib

/-!
Verification development for the json-flatten repository (src/src/index.ts).

The core under verification is the flatten / unflatten pair, the path codec
(splitKey), the numeric-container finalization (maybeConvertToArray) and the
glob-style path filter (filterByPath).  JavaScript values are shallowly
embedded: JSON trees become the inductive `JsonValue`; JavaScript objects are
association lists whose iteration order (`Object.keys` / `Object.entries`)
follows the ECMAScript own-property order, modelled by `jsEntries`
(array-index-like keys first, in ascending numeric order, then the remaining
keys in insertion order); property assignment is `jsSet` (update in place when
the key exists, append otherwise).  JavaScript numbers that occur as array
indices are modelled exactly (as `Nat`); the claims under study never reach
the range where IEEE-754 rounding of indices would be observable.
Property assignment on a primitive is modelled as a silent no-op
(non-strict-mode semantics, the default for plain Node scripts), and property
access on `null` or `undefined` as a thrown `TypeError`, so the fallible
`unflatten` returns `Except`.
-/

/-- Decimal digits of a natural number, most significant first; this models
the ECMAScript ToString conversion of the array indices produced by the
flattener (exact for every `Nat`; JavaScript itself is exact below 2^53,
far above any index reachable in a real array). -/
def natToDigits (n : Nat) : List Char :=
  if h : n < 10 then [Char.ofNat (48 + n)]
  else natToDigits (n / 10) ++ [Char.ofNat (48 + n % 10)]
  decreasing_by
    exact Nat.div_lt_self (Nat.lt_of_lt_of_le (by decide) (Nat.le_of_not_lt h)) (by decide)

/-- Decimal string of a natural number (model of JavaScript number-to-string
for the non-negative integers used as sequence indices). -/
def natToStr (n : Nat) : String :=
  String.mk (natToDigits n)

/-- Numeric value of a list of decimal digit characters. -/
def digitsToNat (l : List Char) : Nat :=
  l.foldl (fun n c => 10 * n + (c.toNat - 48)) 0

/-- Model of the regular-expression test `/^\d+$/.test s`: one or more
characters, all ASCII digits. -/
def isDigits (s : String) : Bool :=
  !s.data.isEmpty && s.data.all Char.isDigit

/-- Canonical ECMAScript array-index string: non-empty, all digits, no leading
zero (except "0" itself), and numerically below 2^32 - 1.  Such property keys
are the ones an object enumerates first, in ascending numeric order. -/
def isArrayIndexStr (s : String) : Bool :=
  !s.data.isEmpty && s.data.all Char.isDigit &&
    (decide (s.data = ['0']) || decide (s.data.head? ≠ some '0')) &&
    decide (digitsToNat s.data < 4294967295)

/-- Numeric value of a property key (used to order array-index-like keys). -/
def keyVal (s : String) : Nat :=
  digitsToNat s.data

/-- Insertion into a list sorted by ascending `keyVal`. -/
def insSorted (kv : String × α) : List (String × α) → List (String × α)
  | [] => [kv]
  | h :: t => if keyVal kv.1 < keyVal h.1 then kv :: h :: t else h :: insSorted kv t

/-- Sort by ascending `keyVal` (insertion sort). -/
def sortIdx (l : List (String × α)) : List (String × α) :=
  l.foldr insSorted []

/-- Own-property enumeration order of a JavaScript object
(`Object.keys` / `Object.entries` / `for..in` on own keys): array-index-like
keys first in ascending numeric order, then all other keys in insertion
order. -/
def jsEntries (es : List (String × α)) : List (String × α) :=
  sortIdx (es.filter (fun kv => isArrayIndexStr kv.1)) ++
    es.filter (fun kv => !isArrayIndexStr kv.1)

/-- JavaScript property assignment `o[k] = v` on an association list: update
in place when the key is present (property order is unchanged), append
otherwise. -/
def jsSet (es : List (String × α)) (k : String) (v : α) : List (String × α) :=
  if es.any (fun kv => kv.1 = k) then
    es.map (fun kv => if kv.1 = k then (k, v) else kv)
  else es ++ [(k, v)]

/-- Association-list lookup, modelling a JavaScript property read (keys are
unique in a real object, so first-match semantics is adequate). -/
def jsGet (es : List (String × α)) (k : String) : Option α :=
  (es.find? (fun kv => kv.1 = k)).map (fun kv => kv.2)

/-- The `JsonValue` tree type of the source (`type JsonValue = string | number
| boolean | null | JsonValue[] | { [key: string]: JsonValue }`).  Numbers are
modelled as integers: no claim under study depends on float arithmetic.
Object entries carry their insertion order; a value parsed from real JSON has
pairwise-distinct keys. -/
inductive JsonValue where
  | null
  | bool (b : Bool)
  | num (n : Int)
  | str (s : String)
  | arr (elems : List JsonValue)
  | obj (entries : List (String × JsonValue))

/-- Size of a sorted insertion, needed to justify termination of the
recursive definitions that walk `jsEntries` of an object. -/
theorem insSorted_sizeOf [SizeOf α] (kv : String × α) (l : List (String × α)) :
    sizeOf (insSorted kv l) = 1 + sizeOf kv + sizeOf l := by
  induction l with
  | nil => simp [insSorted]
  | cons a t ih =>
    by_cases hc : keyVal kv.1 < keyVal a.1
    · simp [insSorted, hc]
    · simp [insSorted, hc, ih]
      try omega

/-- Sorting preserves list size (termination helper). -/
theorem sortIdx_sizeOf [SizeOf α] (l : List (String × α)) :
    sizeOf (sortIdx l) = sizeOf l := by
  induction l with
  | nil => rfl
  | cons a t ih =>
    show sizeOf (insSorted a (sortIdx t)) = _
    rw [insSorted_sizeOf, ih]
    simp
    try omega

/-- Size of an appended list (termination helper). -/
theorem append_sizeOf [SizeOf α] (a b : List α) :
    sizeOf (a ++ b) + 1 = sizeOf a + sizeOf b := by
  induction a with
  | nil =>
    simp
    omega
  | cons x t ih =>
    simp at ih ⊢
    omega

/-- The two complementary filters of a list carry the same total size as the
list (termination helper). -/
theorem filters_sizeOf [SizeOf α] (p : α → Bool) (l : List α) :
    sizeOf (l.filter p) + sizeOf (l.filter fun x => !p x) = sizeOf l + 1 := by
  induction l with
  | nil => simp
  | cons a t ih =>
    by_cases hp : p a <;> simp [List.filter_cons, hp] <;> omega

/-- Enumeration order preserves list size, so recursing over `jsEntries es`
is as good as recursing over `es` (termination helper). -/
theorem jsEntries_sizeOf [SizeOf α] (l : List (String × α)) :
    sizeOf (jsEntries l) = sizeOf l := by
  show sizeOf (sortIdx _ ++ _) = _
  have h1 := append_sizeOf (sortIdx (l.filter fun kv => isArrayIndexStr kv.1))
    (l.filter fun kv => !isArrayIndexStr kv.1)
  have h2 := sortIdx_sizeOf (l.filter fun kv => isArrayIndexStr kv.1)
  have h3 := filters_sizeOf (fun kv : String × α => isArrayIndexStr kv.1) l
  omega

/-- Child path construction of the flattener: the source computes
`prefix ? prefix + delimiter + key : key` (an empty accumulated path is falsy
in JavaScript). -/
def childKey (pre : String) (d : String) (k : String) : String :=
  if pre ≠ "" then pre ++ d ++ k else k

mutual

/-- Shallow embedding of the source function `flatten` (src/src/index.ts
lines 25-60).  Scalars and empty containers are assigned at the accumulated
path; a non-empty array recurses over its elements by ascending index; a
non-empty object recurses over `Object.keys(obj)`, i.e. over `jsEntries`. -/
def flatten (v : JsonValue) (d : String) (pre : String)
    (res : List (String × JsonValue)) : List (String × JsonValue) :=
  match v with
  | .null => jsSet res pre .null
  | .bool b => jsSet res pre (.bool b)
  | .num n => jsSet res pre (.num n)
  | .str s => jsSet res pre (.str s)
  | .arr [] => jsSet res pre (.arr [])
  | .arr (x :: xs) => flattenArr (x :: xs) 0 d pre res
  | .obj [] => jsSet res pre (.obj [])
  | .obj (e :: es) => flattenObj (jsEntries (e :: es)) d pre res
termination_by sizeOf v
decreasing_by
  all_goals simp_wf
  all_goals
    (have h := jsEntries_sizeOf (e :: es)
     have h2 : sizeOf (e :: es) = 1 + sizeOf e + sizeOf es := by simp
     omega)

/-- Element loop of `flatten` over a non-empty array (`for (let i = 0; ...)`),
threading the running index. -/
def flattenArr (l : List JsonValue) (i : Nat) (d : String) (pre : String)
    (res : List (String × JsonValue)) : List (String × JsonValue) :=
  match l with
  | [] => res
  | x :: xs => flattenArr xs (i + 1) d pre (flatten x d (childKey pre d (natToStr i)) res)
termination_by sizeOf l
decreasing_by
  all_goals simp_wf
  all_goals omega

/-- Key loop of `flatten` over the enumerated entries of a non-empty object
(`for (const key of keys)`). -/
def flattenObj (l : List (String × JsonValue)) (d : String) (pre : String)
    (res : List (String × JsonValue)) : List (String × JsonValue) :=
  match l with
  | [] => res
  | (k, x) :: rest => flattenObj rest d pre (flatten x d (childKey pre d k) res)
termination_by sizeOf l
decreasing_by
  all_goals simp_wf
  all_goals omega

end

set_option linter.unusedVariables false in
/-- Leftmost, non-overlapping split of a character list on a literal
occurrence of the (non-empty) character list `d`; this is the semantics of
the JavaScript `String.prototype.split` call performed by `splitKey`.  (For
`d = []` this returns the one-piece split; the program never calls `split`
with an empty separator, since the CLI coerces an empty delimiter to `"."`.) -/
def splitSub (d : List Char) (s : List Char) : List (List Char) :=
  match s with
  | [] => [[]]
  | c :: rest =>
    if h : d ≠ [] ∧ d.isPrefixOf (c :: rest) then
      [] :: splitSub d ((c :: rest).drop d.length)
    else
      match splitSub d rest with
      | [] => [[c]]
      | t :: ts => (c :: t) :: ts
termination_by s.length
decreasing_by
  · simp only [List.length_drop, List.length_cons]
    have : d.length ≠ 0 := fun hl => h.1 (List.length_eq_zero.mp hl)
    omega
  · simp only [List.length_cons]
    omega

/-- Shallow embedding of the source function `splitKey` (src/src/index.ts
lines 91-96): the delimiter-`"."` special case of the source performs the
same literal split as the general case. -/
def splitKey (key : String) (delimiter : String) : List String :=
  if delimiter = "." then (splitSub ".".data key.data).map String.mk
  else (splitSub delimiter.data key.data).map String.mk

/-- Staging JavaScript values used by `unflatten`: primitives, plus mutable
containers (`cont true` for a JavaScript array created as `[]`, `cont false`
for a plain object created as `{}`), whose properties live in an association
list in property-creation order.  Array element slots are ordinary string
properties here; which keys are real element indices is interpreted by
`jsEntries` / `toJson`, exactly as in JavaScript. -/
inductive SVal where
  | vnull
  | vbool (b : Bool)
  | vnum (n : Int)
  | vstr (s : String)
  | cont (isArr : Bool) (entries : List (String × SVal))

mutual

/-- Reading of a parsed JSON value as the JavaScript value it is: scalars map
to primitives, arrays to index-keyed array objects, objects to plain
objects. -/
def toSVal (v : JsonValue) : SVal :=
  match v with
  | .null => .vnull
  | .bool b => .vbool b
  | .num n => .vnum n
  | .str s => .vstr s
  | .arr xs => .cont true (toSValArr xs 0)
  | .obj es => .cont false (toSValObj es)
termination_by sizeOf v
decreasing_by
  all_goals simp_wf

/-- Array elements as index-keyed properties, ascending from index `i`. -/
def toSValArr (l : List JsonValue) (i : Nat) : List (String × SVal) :=
  match l with
  | [] => []
  | x :: xs => (natToStr i, toSVal x) :: toSValArr xs (i + 1)
termination_by sizeOf l
decreasing_by
  all_goals simp_wf
  all_goals omega

/-- Object entries, values converted pointwise. -/
def toSValObj (l : List (String × JsonValue)) : List (String × SVal) :=
  match l with
  | [] => []
  | (k, x) :: rest => (k, toSVal x) :: toSValObj rest
termination_by sizeOf l
decreasing_by
  all_goals simp_wf
  all_goals omega

end

/-- Failure of the unflatten loop: a JavaScript `TypeError` from reading or
writing a property of `null`/`undefined`. -/
inductive JsErr where
  | typeError

/-- One iteration of the entry loop of the source function `unflatten`
(src/src/index.ts lines 67-85), expressed as a recursive walk: at each step
before the last, a missing child is created as `[]` when the next step
matches `/^\d+$/` and as `{}` otherwise, and the walk descends; at the last
step the (converted) value is assigned.  Descending into `null` throws a
`TypeError`; a final assignment onto a non-null primitive is a silent no-op
(non-strict-mode property assignment); descending through a non-null
primitive makes `current` the value `undefined`, whose subsequent property
access throws a `TypeError`. -/
def placeEntry (cur : SVal) (steps : List String) (value : JsonValue) :
    Except JsErr SVal :=
  match cur, steps with
  | .cont a es, [last] => .ok (.cont a (jsSet es last (toSVal value)))
  | .cont a es, k :: next :: rest =>
    let child := match jsGet es k with
      | some c => c
      | none => if isDigits next then SVal.cont true [] else SVal.cont false []
    match placeEntry child (next :: rest) value with
    | .ok child2 => .ok (.cont a (jsSet es k child2))
    | .error e => .error e
  | .vnull, _ => .error .typeError
  | v, [_] => .ok v
  | _, _ => .error .typeError

/-- Iteration of the entry loop of `unflatten` over a list of entries: each
`(path, value)` pair is split on the delimiter and placed into the staging
value; a thrown `TypeError` aborts the whole call. -/
def placeLoop (l : List (String × JsonValue)) (delimiter : String) (acc : SVal) :
    Except JsErr SVal :=
  match l with
  | [] => .ok acc
  | kv :: rest =>
    match placeEntry acc (splitKey kv.1 delimiter) kv.2 with
    | .ok acc2 => placeLoop rest delimiter acc2
    | .error e => .error e

/-- Entry loop of the source function `unflatten`
(`for (const [flatKey, value] of Object.entries(obj))`): the input object's
entries in enumeration order, placed into a fresh staging root object. -/
def placeAll (obj : List (String × JsonValue)) (delimiter : String) :
    Except JsErr SVal :=
  placeLoop (jsEntries obj) delimiter (SVal.cont false [])

/-- Placement loop of the numeric branch of `maybeConvertToArray`
(`arr[parseInt(k)] = ...`): each already-converted child is assigned at the
array slot named by the numeric value of its key (`parseInt` on a `\d+` key
reads the digits, so leading zeros collapse). -/
def arrPlace (l : List (String × SVal)) : List (String × SVal) :=
  l.foldl (fun acc kv => jsSet acc (natToStr (digitsToNat kv.1.data)) kv.2) []

mutual

/-- Shallow embedding of the source function `maybeConvertToArray`
(src/src/index.ts lines 98-117): primitives and arrays are returned
unchanged (no recursion into arrays); a plain object whose key set is
non-empty and all-`/^\d+$/` becomes an array by numeric placement of its
recursively converted children; any other plain object keeps its keys, with
children converted in place. -/
def maybeConvertToArray (v : SVal) : SVal :=
  match v with
  | .vnull => .vnull
  | .vbool b => .vbool b
  | .vnum n => .vnum n
  | .vstr s => .vstr s
  | .cont true es => .cont true es
  | .cont false es =>
    let es2 := convertEntries es
    let keys := (jsEntries es2).map (fun kv => kv.1)
    if !keys.isEmpty && keys.all isDigits then .cont true (arrPlace (jsEntries es2))
    else .cont false es2
termination_by sizeOf v
decreasing_by
  all_goals simp_wf

/-- Pointwise recursive conversion of the children of a plain object
(`obj[k] = maybeConvertToArray(obj[k])`, an in-place update that keeps the
property order). -/
def convertEntries (l : List (String × SVal)) : List (String × SVal) :=
  match l with
  | [] => []
  | (k, x) :: rest => (k, maybeConvertToArray x) :: convertEntries rest
termination_by sizeOf l
decreasing_by
  all_goals simp_wf
  all_goals omega

end

/-- Elements of a JavaScript array object, as observed by `JSON.stringify`:
the length is one more than the largest canonical array-index key (0 for
none), element `i` is the property named `natToStr i` when present and a
JSON `null` for a hole, and non-index string properties are dropped. -/
def arrElems (es : List (String × JsonValue)) : List JsonValue :=
  let len := es.foldl
    (fun m kv => if isArrayIndexStr kv.1 then max m (keyVal kv.1 + 1) else m) 0
  (List.range len).map (fun i =>
    match jsGet es (natToStr i) with
    | some v => v
    | none => JsonValue.null)

mutual

/-- Reading of a final JavaScript value back as the JSON tree that
`JSON.stringify` serializes: arrays by their dense element list (holes as
`null`, non-index properties dropped), plain objects by their enumeration
order. -/
def toJson (v : SVal) : JsonValue :=
  match v with
  | .vnull => .null
  | .vbool b => .bool b
  | .vnum n => .num n
  | .vstr s => .str s
  | .cont true es => .arr (arrElems (toJsonEntries es))
  | .cont false es => .obj (jsEntries (toJsonEntries es))
termination_by sizeOf v
decreasing_by
  all_goals simp_wf

/-- Pointwise reading of container entries. -/
def toJsonEntries (l : List (String × SVal)) : List (String × JsonValue) :=
  match l with
  | [] => []
  | (k, x) :: rest => (k, toJson x) :: toJsonEntries rest
termination_by sizeOf l
decreasing_by
  all_goals simp_wf
  all_goals omega

end

/-- Shallow embedding of the source function `unflatten` (src/src/index.ts
lines 64-89), composed with the reading of the resulting JavaScript value as
a JSON tree: place every entry into the staging root, then convert the root
via `maybeConvertToArray`. -/
def unflatten (obj : List (String × JsonValue)) (delimiter : String) :
    Except JsErr JsonValue :=
  match placeAll obj delimiter with
  | .ok staging => .ok (toJson (maybeConvertToArray staging))
  | .error e => .error e

/-- Characters escaped by the pattern compiler of `filterByPath`: the
character class `[.+?^${}()|[\]\\]` of the source.  A lone `*` is
deliberately not escaped (it is the wildcard). -/
def reMetaChars : List Char :=
  ['.', '+', '?', '^', '$', '{', '}', '(', ')', '|', '[', ']', '\\']

/-- First substitution pass of `filterByPath`
(`.replace(/[.+?^${}()|[\]\\]/g, '\\$&')`): a backslash is put in front of
every metacharacter. -/
def escapeRe (p : List Char) : List Char :=
  p.flatMap (fun c => if reMetaChars.contains c then ['\\', c] else [c])

/-- Second substitution pass of `filterByPath` (`.replace(/\*/g, '[^.]*')`):
every single `*` becomes the regex fragment `[^.]*`. -/
def starRe (p : List Char) : List Char :=
  p.flatMap (fun c => if c = '*' then "[^.]*".data else [c])

set_option linter.unusedVariables false in
/-- Leftmost, non-overlapping replacement of a literal occurrence of `pat` by
`repl`, the semantics of a global-regex `.replace` on a literal pattern. -/
def replaceSub (pat repl : List Char) (s : List Char) : List Char :=
  match s with
  | [] => []
  | c :: rest =>
    if h : pat ≠ [] ∧ pat.isPrefixOf (c :: rest) then
      repl ++ replaceSub pat repl ((c :: rest).drop pat.length)
    else c :: replaceSub pat repl rest
termination_by s.length
decreasing_by
  · simp only [List.length_drop, List.length_cons]
    have : pat.length ≠ 0 := fun hl => h.1 (List.length_eq_zero.mp hl)
    omega
  · simp only [List.length_cons]
    omega

/-- The compiled regex source built by `filterByPath` (src/src/index.ts lines
125-132), without the surrounding `^`/`$` anchors (anchoring is part of the
matching semantics below): escape the metacharacters, replace every `*` by
`[^.]*`, then replace every remaining `**` by `.*` (the third pass of the
source, which runs after the second). -/
def compiledRe (pattern : String) : List Char :=
  replaceSub "**".data ".*".data (starRe (escapeRe pattern.data))

/-- Single-character atoms of the regex fragment reachable from the pattern
compiler: a literal character, the class `[^.]` and the any-character `.`. -/
inductive RAtom where
  | lit (c : Char)
  | nonDot
  | anyc

mutual

/-- Parse of a compiled regex source into a sequence of atoms, each possibly
`*`-quantified.  Syntax outside the reachable fragment (stray `*` with
nothing to repeat, dangling backslash, stray bracket) yields `none`,
corresponding to a `SyntaxError` from the `RegExp` constructor. -/
def tokenize (s : List Char) : Option (List (RAtom × Bool)) :=
  match s with
  | [] => some []
  | '\\' :: [] => none
  | '\\' :: c :: rest => withStar (RAtom.lit c) rest
  | '[' :: '^' :: '.' :: ']' :: rest => withStar RAtom.nonDot rest
  | '[' :: _ => none
  | ']' :: _ => none
  | '.' :: rest => withStar RAtom.anyc rest
  | '*' :: _ => none
  | c :: rest => withStar (RAtom.lit c) rest
termination_by (s.length, 0)
decreasing_by
  all_goals
    (apply Prod.Lex.left
     simp only [List.length_cons]
     omega)

/-- Attachment of an optional `*` quantifier to the atom just parsed. -/
def withStar (a : RAtom) (rest : List Char) : Option (List (RAtom × Bool)) :=
  match rest with
  | '*' :: rest2 => (tokenize rest2).map (fun ts => (a, true) :: ts)
  | other => (tokenize other).map (fun ts => (a, false) :: ts)
termination_by (rest.length, 1)
decreasing_by
  all_goals
    first
    | (apply Prod.Lex.left
       simp only [List.length_cons]
       omega)
    | (apply Prod.Lex.right
       omega)

end

/-- Test of one atom against one character.  The any-character atom excludes
the ECMAScript line terminators, as `.` does without the `s` flag. -/
def amatch (a : RAtom) (c : Char) : Bool :=
  match a with
  | .lit c2 => c = c2
  | .nonDot => c ≠ '.'
  | .anyc => !(c = '\n' || c = '\r' || c.toNat = 8232 || c.toNat = 8233)

/-- Whole-string (anchored) matching of a quantified-atom sequence: this is
the truth value of `new RegExp('^' + src + '$').test(path)` for the regex
fragment at hand, where a `*`-quantified atom may consume any number of
matching characters. -/
def matchToks (ts : List (RAtom × Bool)) (s : List Char) : Bool :=
  match ts, s with
  | [], rest => rest.isEmpty
  | (_, false) :: _, [] => false
  | (a, false) :: rest, c :: cs => amatch a c && matchToks rest cs
  | (a, true) :: rest, cs =>
    matchToks rest cs ||
      (match cs with
       | [] => false
       | c :: cs2 => amatch a c && matchToks ((a, true) :: rest) cs2)
termination_by (ts.length, s.length)

/-- Truth value of the compiled filter pattern on one path: compile the
pattern as `filterByPath` does and test the anchored regex. -/
def testPattern (pattern : String) (path : String) : Bool :=
  match tokenize (compiledRe pattern) with
  | some ts => matchToks ts path.data
  | none => false

/-- Shallow embedding of the source function `filterByPath`
(src/src/index.ts lines 121-141): keep, in enumeration order, the entries
whose path the compiled pattern matches. -/
def filterByPath (flat : List (String × JsonValue)) (pattern : String) :
    List (String × JsonValue) :=
  (jsEntries flat).foldl
    (fun acc kv => if testPattern pattern kv.1 then jsSet acc kv.1 kv.2 else acc) []

/-- Scalar (primitive leaf) test on a tree value. -/
def isScalar (v : JsonValue) : Bool :=
  match v with
  | .null | .bool _ | .num _ | .str _ => true
  | .arr _ | .obj _ => false

mutual

/-- Specification-side depth-first pre-order traversal of a tree value,
yielding each leaf (scalar or empty container) with the list of steps that
reaches it.  Object keys are visited in the enumeration order of the object
(`jsEntries`), sequence elements by ascending index, exactly the order of
the recursion of `flatten`. -/
def leaves (v : JsonValue) : List (List String × JsonValue) :=
  match v with
  | .null => [([], .null)]
  | .bool b => [([], .bool b)]
  | .num n => [([], .num n)]
  | .str s => [([], .str s)]
  | .arr [] => [([], .arr [])]
  | .arr (x :: xs) => leavesArr (x :: xs) 0
  | .obj [] => [([], .obj [])]
  | .obj (e :: es) => leavesObj (jsEntries (e :: es))
termination_by sizeOf v
decreasing_by
  all_goals simp_wf
  all_goals
    (have h := jsEntries_sizeOf (e :: es)
     have h2 : sizeOf (e :: es) = 1 + sizeOf e + sizeOf es := by simp
     omega)

/-- Pre-order leaves of the elements of a sequence, indices ascending from
`i`. -/
def leavesArr (l : List JsonValue) (i : Nat) : List (List String × JsonValue) :=
  match l with
  | [] => []
  | x :: xs =>
    (leaves x).map (fun pv => (natToStr i :: pv.1, pv.2)) ++ leavesArr xs (i + 1)
termination_by sizeOf l
decreasing_by
  all_goals simp_wf
  all_goals omega

/-- Pre-order leaves of a list of map entries, in the order given. -/
def leavesObj (l : List (String × JsonValue)) : List (List String × JsonValue) :=
  match l with
  | [] => []
  | (k, x) :: rest => (leaves x).map (fun pv => (k :: pv.1, pv.2)) ++ leavesObj rest
termination_by sizeOf l
decreasing_by
  all_goals simp_wf
  all_goals omega

end

/-- Path of a leaf: the accumulated-prefix join that `flatten` threads
through its recursion, applied to a list of steps. -/
def pathOf (pre d : String) (p : List String) : String :=
  p.foldl (fun a s => childKey a d s) pre

/-- Specification-side flat mapping: the pre-order leaves of `v` keyed by
their joined paths.  This is the mapping the pre-order-stability property
compares `flatten` against (with object keys in enumeration order). -/
def preorderFlat (v : JsonValue) (d : String) : List (String × JsonValue) :=
  (leaves v).map (fun pv => (pathOf "" d pv.1, pv.2))

mutual

/-- Literal reading of the pre-order traversal of the specification, with map
keys in their original (insertion) order rather than in JavaScript
enumeration order; used to compare the claimed ordering against the
implemented one. -/
def leavesIns (v : JsonValue) : List (List String × JsonValue) :=
  match v with
  | .null => [([], .null)]
  | .bool b => [([], .bool b)]
  | .num n => [([], .num n)]
  | .str s => [([], .str s)]
  | .arr [] => [([], .arr [])]
  | .arr (x :: xs) => leavesInsArr (x :: xs) 0
  | .obj [] => [([], .obj [])]
  | .obj (e :: es) => leavesInsObj (e :: es)
termination_by sizeOf v
decreasing_by
  all_goals simp_wf

/-- Elements of a sequence in insertion-order pre-order, ascending indices. -/
def leavesInsArr (l : List JsonValue) (i : Nat) : List (List String × JsonValue) :=
  match l with
  | [] => []
  | x :: xs =>
    (leavesIns x).map (fun pv => (natToStr i :: pv.1, pv.2)) ++ leavesInsArr xs (i + 1)
termination_by sizeOf l
decreasing_by
  all_goals simp_wf
  all_goals omega

/-- Entries of a map in original order. -/
def leavesInsObj (l : List (String × JsonValue)) : List (List String × JsonValue) :=
  match l with
  | [] => []
  | (k, x) :: rest => (leavesIns x).map (fun pv => (k :: pv.1, pv.2)) ++ leavesInsObj rest
termination_by sizeOf l
decreasing_by
  all_goals simp_wf
  all_goals omega

end

/-- Flat mapping in the order literally claimed by the specification:
depth-first pre-order with map keys in their original order. -/
def origPreorderFlat (v : JsonValue) (d : String) : List (String × JsonValue) :=
  (leavesIns v).map (fun pv => (pathOf "" d pv.1, pv.2))

/-- Round-trip-safe map key with respect to a delimiter character: non-empty,
not made of digits only (so it can never be reinterpreted as a sequence
index, nor is it an array-index-like property key), and not containing the
delimiter character. -/
def goodKey (dc : Char) (k : String) : Bool :=
  !k.data.isEmpty && !(k.data.all Char.isDigit) && !(k.data.contains dc)

mutual

/-- Round-trip-safe tree values with respect to a delimiter character: every
map key anywhere in the tree is a `goodKey`, map keys are pairwise distinct
(as they are in any real parsed JSON object), and every sequence is short
enough that all its indices are genuine array indices. -/
def goodVal (dc : Char) (v : JsonValue) : Bool :=
  match v with
  | .null | .bool _ | .num _ | .str _ => true
  | .arr xs => decide (xs.length < 4294967295) && goodArr dc xs
  | .obj es =>
    decide ((es.map (fun kv => kv.1)).Nodup) && goodObj dc es
termination_by sizeOf v
decreasing_by
  all_goals simp_wf

/-- Elementwise safety of a sequence. -/
def goodArr (dc : Char) (l : List JsonValue) : Bool :=
  match l with
  | [] => true
  | x :: xs => goodVal dc x && goodArr dc xs
termination_by sizeOf l
decreasing_by
  all_goals simp_wf
  all_goals omega

/-- Entrywise safety of a map: every key is a `goodKey` and every value is
safe. -/
def goodObj (dc : Char) (l : List (String × JsonValue)) : Bool :=
  match l with
  | [] => true
  | (k, x) :: rest => goodKey dc k && goodVal dc x && goodObj dc rest
termination_by sizeOf l
decreasing_by
  all_goals simp_wf
  all_goals omega

end

/-- Specification-side path encoding: join a list of steps with the
delimiter (`encode` of the Path Codec; an empty step list encodes to the
empty string). -/
def joinSteps (d : String) (steps : List String) : String :=
  match steps with
  | [] => ""
  | s :: rest => rest.foldl (fun a t => a ++ d ++ t) s

/-- Character-level join of split pieces with the delimiter, mirror of
`joinSteps` used to reason about `splitSub`. -/
def intercalateChars (d : List Char) : List (List Char) → List Char
  | [] => []
  | [p] => p
  | p :: q :: rest => p ++ d ++ intercalateChars d (q :: rest)

/-- Observable shape of a staging value: `some isArr` for a container,
`none` for a primitive. -/
def contShape (v : SVal) : Option Bool :=
  match v with
  | .cont a _ => some a
  | _ => none

/-- The entry loop of `unflatten` with the flat keys already split into their
step lists (`placeLoop` after `splitKey` has been applied to every key): the
form in which the placement loop is analysed. -/
def placeSteps (l : List (List String × JsonValue)) (acc : SVal) : Except JsErr SVal :=
  match l with
  | [] => .ok acc
  | pv :: rest =>
    match placeEntry acc pv.1 pv.2 with
    | .ok acc2 => placeSteps rest acc2
    | .error e => .error e

/-!
Theorems.  Each claim C1-C10 of the specification has exactly one main
theorem below; corrected claims additionally have a counterexample theorem,
and theorems with hypotheses have a closed witness.
-/

/-- Ground value of the index string for 0. -/
theorem natToStr_zero : natToStr 0 = "0" := by simp [natToStr, natToDigits]

/-- Ground value of the index string for 1. -/
theorem natToStr_one : natToStr 1 = "1" := by simp [natToStr, natToDigits]

/-- C7: `flatten {"a": [], "b": {}}` with delimiter `"."` yields exactly the
two-entry flat mapping with the empty-sequence and empty-map markers, and
`unflatten` of that flat mapping yields the tree `{"a": [], "b": {}}` back:
the empty sequence stays a sequence and the empty map stays a map. -/
theorem C7_emptyContainers :
    flatten (JsonValue.obj [("a", JsonValue.arr []), ("b", JsonValue.obj [])]) "." "" [] =
      [("a", JsonValue.arr []), ("b", JsonValue.obj [])] ∧
    unflatten [("a", JsonValue.arr []), ("b", JsonValue.obj [])] "." =
      .ok (JsonValue.obj [("a", JsonValue.arr []), ("b", JsonValue.obj [])]) := by
  constructor
  · simp [flatten, flattenObj, flattenArr, jsEntries, sortIdx, insSorted, jsSet,
      isArrayIndexStr, digitsToNat, childKey]
  · have h1 : placeAll [("a", JsonValue.arr []), ("b", JsonValue.obj [])] "." =
        .ok (SVal.cont false [("a", SVal.cont true []), ("b", SVal.cont false [])]) := by
      simp [placeAll, placeLoop, placeEntry, splitKey, splitSub, jsEntries, sortIdx,
        insSorted, jsSet, jsGet, isArrayIndexStr, digitsToNat, isDigits, toSVal,
        toSValArr, toSValObj]
    simp only [unflatten, h1]
    simp [maybeConvertToArray, convertEntries, jsEntries, sortIdx, insSorted,
      isArrayIndexStr, digitsToNat, isDigits, arrPlace, toJson, toJsonEntries,
      arrElems, jsGet, keyVal]

/-- C5 counterexample: `unflatten {"": 5}` returns the one-entry map
`{"": 5}`, not the bare scalar `5` that the claim promises (the source has
no root-is-scalar special case: the empty-string key is assigned like any
other key and survives into the result object). -/
theorem C5_counterexample :
    unflatten [("", JsonValue.num 5)] "." = .ok (JsonValue.obj [("", JsonValue.num 5)]) ∧
    unflatten [("", JsonValue.num 5)] "." ≠ .ok (JsonValue.num 5) := by
  have h1 : placeAll [("", JsonValue.num 5)] "." =
      .ok (SVal.cont false [("", SVal.vnum 5)]) := by
    simp [placeAll, placeLoop, placeEntry, splitKey, splitSub, jsEntries, sortIdx,
      insSorted, jsSet, jsGet, isArrayIndexStr, digitsToNat, isDigits, toSVal,
      toSValArr, toSValObj]
  have h2 : unflatten [("", JsonValue.num 5)] "." =
      .ok (JsonValue.obj [("", JsonValue.num 5)]) := by
    simp only [unflatten, h1]
    simp [maybeConvertToArray, convertEntries, jsEntries, sortIdx, insSorted,
      isArrayIndexStr, digitsToNat, isDigits, arrPlace, toJson, toJsonEntries,
      arrElems, jsGet, keyVal]
  exact ⟨h2, by rw [h2]; simp⟩

/-- C6 counterexample: the flat mapping `{"a.b": 1, "a": 2}` implies children
under `a` and a scalar at `a`, yet `unflatten` returns the ordinary value
`{"a": 2}` (the later entry silently overwrites the container), surfacing no
failure value. -/
theorem C6_counterexample :
    unflatten [("a.b", JsonValue.num 1), ("a", JsonValue.num 2)] "." =
      .ok (JsonValue.obj [("a", JsonValue.num 2)]) ∧
    unflatten [("a.b", JsonValue.num 1), ("a", JsonValue.num 2)] "." ≠
      .error JsErr.typeError := by
  have h1 : placeAll [("a.b", JsonValue.num 1), ("a", JsonValue.num 2)] "." =
      .ok (SVal.cont false [("a", SVal.vnum 2)]) := by
    simp [placeAll, placeLoop, placeEntry, splitKey, splitSub, jsEntries, sortIdx,
      insSorted, jsSet, jsGet, isArrayIndexStr, digitsToNat, isDigits, toSVal,
      toSValArr, toSValObj]
  have h2 : unflatten [("a.b", JsonValue.num 1), ("a", JsonValue.num 2)] "." =
      .ok (JsonValue.obj [("a", JsonValue.num 2)]) := by
    simp only [unflatten, h1]
    simp [maybeConvertToArray, convertEntries, jsEntries, sortIdx, insSorted,
      isArrayIndexStr, digitsToNat, isDigits, arrPlace, toJson, toJsonEntries,
      arrElems, jsGet, keyVal]
  exact ⟨h2, by rw [h2]; simp⟩

/-- C6 (amended): `unflatten` never surfaces a structural-conflict failure
value.  A later entry whose path is a proper prefix of an earlier one
silently overwrites the existing container (last write wins); a later entry
that extends a scalar's path by one step is silently ignored (non-strict
property assignment on a primitive); an extension by two or more steps
throws a `TypeError` (property access on `undefined`), which aborts the CLI
rather than being returned as a typed core value. -/
theorem C6_conflict_amended :
    unflatten [("a.b", JsonValue.num 1), ("a", JsonValue.num 2)] "." =
      .ok (JsonValue.obj [("a", JsonValue.num 2)]) ∧
    unflatten [("a", JsonValue.num 1), ("a.b", JsonValue.num 2)] "." =
      .ok (JsonValue.obj [("a", JsonValue.num 1)]) ∧
    unflatten [("a", JsonValue.num 1), ("a.b.c", JsonValue.num 2)] "." =
      .error JsErr.typeError := by
  refine ⟨?_, ?_, ?_⟩
  · have h1 : placeAll [("a.b", JsonValue.num 1), ("a", JsonValue.num 2)] "." =
        .ok (SVal.cont false [("a", SVal.vnum 2)]) := by
      simp [placeAll, placeLoop, placeEntry, splitKey, splitSub, jsEntries, sortIdx,
        insSorted, jsSet, jsGet, isArrayIndexStr, digitsToNat, isDigits, toSVal,
        toSValArr, toSValObj]
    simp only [unflatten, h1]
    simp [maybeConvertToArray, convertEntries, jsEntries, sortIdx, insSorted,
      isArrayIndexStr, digitsToNat, isDigits, arrPlace, toJson, toJsonEntries,
      arrElems, jsGet, keyVal]
  · have h1 : placeAll [("a", JsonValue.num 1), ("a.b", JsonValue.num 2)] "." =
        .ok (SVal.cont false [("a", SVal.vnum 1)]) := by
      simp [placeAll, placeLoop, placeEntry, splitKey, splitSub, jsEntries, sortIdx,
        insSorted, jsSet, jsGet, isArrayIndexStr, digitsToNat, isDigits, toSVal,
        toSValArr, toSValObj]
    simp only [unflatten, h1]
    simp [maybeConvertToArray, convertEntries, jsEntries, sortIdx, insSorted,
      isArrayIndexStr, digitsToNat, isDigits, arrPlace, toJson, toJsonEntries,
      arrElems, jsGet, keyVal]
  · have h1 : placeAll [("a", JsonValue.num 1), ("a.b.c", JsonValue.num 2)] "." =
        .error JsErr.typeError := by
      simp [placeAll, placeLoop, placeEntry, splitKey, splitSub, jsEntries, sortIdx,
        insSorted, jsSet, jsGet, isArrayIndexStr, digitsToNat, isDigits, toSVal,
        toSValArr, toSValObj]
    simp only [unflatten, h1]

/-- C8 counterexample: with the legitimate leaf values `{}` (empty-map
marker) and a string, `unflatten {"a.0": {}, "a.0.5": "x"}` returns
`{"a": [{"5": "x"}]}`: the container at `a.0` ends with the non-empty
all-numeric key set `{"5"}` yet stays a map, because `maybeConvertToArray`
never recurses into arrays; the claim instead demands the sequence
`[null, null, null, null, null, "x"]` there. -/
theorem C8_counterexample :
    unflatten [("a.0", JsonValue.obj []), ("a.0.5", JsonValue.str "x")] "." =
      .ok (JsonValue.obj [("a", JsonValue.arr [JsonValue.obj [("5", JsonValue.str "x")]])]) ∧
    unflatten [("a.0", JsonValue.obj []), ("a.0.5", JsonValue.str "x")] "." ≠
      .ok (JsonValue.obj [("a", JsonValue.arr [JsonValue.arr
        [JsonValue.null, JsonValue.null, JsonValue.null, JsonValue.null,
         JsonValue.null, JsonValue.str "x"]])]) := by
  have h1 : placeAll [("a.0", JsonValue.obj []), ("a.0.5", JsonValue.str "x")] "." =
      .ok (SVal.cont false
        [("a", SVal.cont true [("0", SVal.cont false [("5", SVal.vstr "x")])])]) := by
    simp [placeAll, placeLoop, placeEntry, splitKey, splitSub, jsEntries, sortIdx,
      insSorted, jsSet, jsGet, isArrayIndexStr, digitsToNat, isDigits, toSVal,
      toSValArr, toSValObj]
  have h2 : unflatten [("a.0", JsonValue.obj []), ("a.0.5", JsonValue.str "x")] "." =
      .ok (JsonValue.obj [("a", JsonValue.arr [JsonValue.obj [("5", JsonValue.str "x")]])]) := by
    simp only [unflatten, h1]
    simp [maybeConvertToArray, convertEntries, jsEntries, sortIdx, insSorted,
      isArrayIndexStr, digitsToNat, isDigits, arrPlace, toJson, toJsonEntries,
      arrElems, jsGet, keyVal, natToStr_zero, List.range_succ]
  exact ⟨h2, by rw [h2]; simp⟩

/-- C2: evaluation of the compiled filter at the claimed inputs.  Because the
source substitutes every lone `*` (turning `**` into `[^.]*[^.]*`) before the
`**` pass, whose pattern then no longer occurs, the compiled `**` cannot
cross a delimiter: `**.name` matches `user.name` but rejects both
`user.address.name` and the bare path `name`, contradicting the claimed
(and documented) deep-wildcard semantics. -/
theorem C2_doubleStar_eval :
    testPattern "**.name" "user.name" = true ∧
    testPattern "**.name" "user.address.name" = false ∧
    testPattern "**.name" "name" = false := by
  refine ⟨?_, ?_, ?_⟩ <;>
    simp [testPattern, compiledRe, escapeRe, starRe, replaceSub, reMetaChars,
      tokenize, withStar, matchToks, amatch]

/-- C3 counterexample: the compiled `*` is `[^.]*`, which matches the empty
segment (so `user.*` accepts the path `user.`, refuting "one or more
characters"), and which excludes the dot regardless of the configured
delimiter (so with delimiter `/`, `user/*` accepts the multi-segment path
`user/address/city`). -/
theorem C3_counterexample :
    testPattern "user.*" "user." = true ∧
    testPattern "user/*" "user/address/city" = true := by
  constructor <;>
    simp [testPattern, compiledRe, escapeRe, starRe, replaceSub, reMetaChars,
      tokenize, withStar, matchToks, amatch]

/-- C4 counterexample: for the map with keys in the original order
`["1", "0"]`, `flatten` emits `0` before `1` (JavaScript enumerates
array-index-like keys in ascending numeric order), so the flat mapping's
order differs from the claimed original-order pre-order traversal. -/
theorem C4_counterexample :
    flatten (JsonValue.obj [("1", JsonValue.str "b"), ("0", JsonValue.str "a")]) "." "" [] =
      [("0", JsonValue.str "a"), ("1", JsonValue.str "b")] ∧
    origPreorderFlat (JsonValue.obj [("1", JsonValue.str "b"), ("0", JsonValue.str "a")]) "." =
      [("1", JsonValue.str "b"), ("0", JsonValue.str "a")] ∧
    flatten (JsonValue.obj [("1", JsonValue.str "b"), ("0", JsonValue.str "a")]) "." "" [] ≠
      origPreorderFlat (JsonValue.obj [("1", JsonValue.str "b"), ("0", JsonValue.str "a")]) "." := by
  have h1 : flatten (JsonValue.obj [("1", JsonValue.str "b"), ("0", JsonValue.str "a")]) "." "" [] =
      [("0", JsonValue.str "a"), ("1", JsonValue.str "b")] := by
    simp [flatten, flattenObj, flattenArr, jsEntries, sortIdx, insSorted, jsSet,
      isArrayIndexStr, digitsToNat, childKey, keyVal]
  have h2 : origPreorderFlat (JsonValue.obj [("1", JsonValue.str "b"), ("0", JsonValue.str "a")]) "." =
      [("1", JsonValue.str "b"), ("0", JsonValue.str "a")] := by
    simp [origPreorderFlat, leavesIns, leavesInsObj, leavesInsArr, pathOf, childKey]
  exact ⟨h1, h2, by rw [h1, h2]; simp⟩

/-- C1 counterexample: the round-trip fails already for a bare root scalar,
which the claim explicitly includes: `flatten 5` gives `{"": 5}` and
`unflatten {"": 5}` gives the map `{"": 5}`, not the scalar `5`. -/
theorem C1_counterexample :
    unflatten (flatten (JsonValue.num 5) "." "" []) "." =
      .ok (JsonValue.obj [("", JsonValue.num 5)]) ∧
    unflatten (flatten (JsonValue.num 5) "." "" []) "." ≠ .ok (JsonValue.num 5) := by
  have hf : flatten (JsonValue.num 5) "." "" [] = [("", JsonValue.num 5)] := by
    simp [flatten, jsSet]
  have h1 : placeAll [("", JsonValue.num 5)] "." =
      .ok (SVal.cont false [("", SVal.vnum 5)]) := by
    simp [placeAll, placeLoop, placeEntry, splitKey, splitSub, jsEntries, sortIdx,
      insSorted, jsSet, jsGet, isArrayIndexStr, digitsToNat, isDigits, toSVal,
      toSValArr, toSValObj]
  have h2 : unflatten [("", JsonValue.num 5)] "." =
      .ok (JsonValue.obj [("", JsonValue.num 5)]) := by
    simp only [unflatten, h1]
    simp [maybeConvertToArray, convertEntries, jsEntries, sortIdx, insSorted,
      isArrayIndexStr, digitsToNat, isDigits, arrPlace, toJson, toJsonEntries,
      arrElems, jsGet, keyVal]
  rw [hf]
  exact ⟨h2, by rw [h2]; simp⟩

/-- Splitting the empty path yields the single empty step, for every
delimiter (JavaScript `"".split(sep)` is `[""]`). -/
theorem splitKey_empty (d : String) : splitKey "" d = [""] := by
  by_cases hd : d = "." <;> simp [splitKey, hd, splitSub]

/-- C5 (amended): `flatten` emits a root scalar under the key `""`, and
`unflatten` of the one-entry flat mapping `{"": v}` returns the one-entry
map `{"": v}` — the scalar stays wrapped; the source has no root-is-scalar
unwrapping case. -/
theorem C5_rootScalar_amended (v : JsonValue) (d : String) (h : isScalar v = true) :
    flatten v d "" [] = [("", v)] ∧
    unflatten [("", v)] d = .ok (JsonValue.obj [("", v)]) := by
  have h1 : placeAll [("", v)] d = .ok (SVal.cont false [("", toSVal v)]) := by
    simp [placeAll, placeLoop, placeEntry, splitKey_empty, jsEntries, sortIdx,
      insSorted, jsSet, isArrayIndexStr, digitsToNat]
  cases v with
  | null =>
    refine ⟨by simp [flatten, jsSet], ?_⟩
    simp only [unflatten, h1]
    simp [maybeConvertToArray, convertEntries, jsEntries, sortIdx, insSorted,
      isArrayIndexStr, digitsToNat, isDigits, toSVal, toJson, toJsonEntries]
  | bool b =>
    refine ⟨by simp [flatten, jsSet], ?_⟩
    simp only [unflatten, h1]
    simp [maybeConvertToArray, convertEntries, jsEntries, sortIdx, insSorted,
      isArrayIndexStr, digitsToNat, isDigits, toSVal, toJson, toJsonEntries]
  | num n =>
    refine ⟨by simp [flatten, jsSet], ?_⟩
    simp only [unflatten, h1]
    simp [maybeConvertToArray, convertEntries, jsEntries, sortIdx, insSorted,
      isArrayIndexStr, digitsToNat, isDigits, toSVal, toJson, toJsonEntries]
  | str s =>
    refine ⟨by simp [flatten, jsSet], ?_⟩
    simp only [unflatten, h1]
    simp [maybeConvertToArray, convertEntries, jsEntries, sortIdx, insSorted,
      isArrayIndexStr, digitsToNat, isDigits, toSVal, toJson, toJsonEntries]
  | arr xs => simp [isScalar] at h
  | obj es => simp [isScalar] at h

/-- Witness for the amended C5 theorem at the scalar `5`. -/
theorem C5_rootScalar_amended_witness :
    isScalar (JsonValue.num 5) = true ∧
    flatten (JsonValue.num 5) "." "" [] = [("", JsonValue.num 5)] ∧
    unflatten [("", JsonValue.num 5)] "." = .ok (JsonValue.obj [("", JsonValue.num 5)]) :=
  ⟨rfl, C5_rootScalar_amended (JsonValue.num 5) "." rfl⟩

/-- Conversion is the identity on primitive values. -/
theorem conv_toSVal_scalar (v : JsonValue) (h : isScalar v = true) :
    maybeConvertToArray (toSVal v) = toSVal v := by
  cases v <;> simp_all [isScalar, toSVal, maybeConvertToArray]

/-- Reading back a primitive value is the identity. -/
theorem toJson_toSVal_scalar (v : JsonValue) (h : isScalar v = true) :
    toJson (toSVal v) = v := by
  cases v <;> simp_all [isScalar, toSVal, toJson]

/-- C8 (amended): the root container becomes a sequence when its key set is
non-empty and all-numeric (`{"0": a, "1": b}` reconstructs to `[a, b]`);
a nested container whose first-creating next step is numeric is created as a
sequence directly (`{"x.0": a}` reconstructs to `{"x": [a]}`); a container
with any non-numeric key stays a map (`{"0": a, "x": b}` stays a map).  The
conversion does not, however, descend into sequences (see the
counterexample), so "every" all-numeric staging container is too strong. -/
theorem C8_numericFinalize_amended (a b : JsonValue)
    (ha : isScalar a = true) (hb : isScalar b = true) :
    unflatten [("0", a), ("1", b)] "." = .ok (JsonValue.arr [a, b]) ∧
    unflatten [("x.0", a)] "." = .ok (JsonValue.obj [("x", JsonValue.arr [a])]) ∧
    unflatten [("0", a), ("x", b)] "." = .ok (JsonValue.obj [("0", a), ("x", b)]) := by
  refine ⟨?_, ?_, ?_⟩
  · have h1 : placeAll [("0", a), ("1", b)] "." =
        .ok (SVal.cont false [("0", toSVal a), ("1", toSVal b)]) := by
      simp [placeAll, placeLoop, placeEntry, splitKey, splitSub, jsEntries, sortIdx,
        insSorted, jsSet, jsGet, isArrayIndexStr, digitsToNat, isDigits, keyVal]
    simp only [unflatten, h1]
    simp [maybeConvertToArray, convertEntries, jsEntries, sortIdx, insSorted,
      isArrayIndexStr, digitsToNat, isDigits, arrPlace, toJson, toJsonEntries,
      arrElems, jsGet, jsSet, keyVal, natToStr_zero, natToStr_one, List.range_succ,
      conv_toSVal_scalar a ha, conv_toSVal_scalar b hb,
      toJson_toSVal_scalar a ha, toJson_toSVal_scalar b hb]
  · have h1 : placeAll [("x.0", a)] "." =
        .ok (SVal.cont false [("x", SVal.cont true [("0", toSVal a)])]) := by
      simp [placeAll, placeLoop, placeEntry, splitKey, splitSub, jsEntries, sortIdx,
        insSorted, jsSet, jsGet, isArrayIndexStr, digitsToNat, isDigits, keyVal]
    simp only [unflatten, h1]
    simp [maybeConvertToArray, convertEntries, jsEntries, sortIdx, insSorted,
      isArrayIndexStr, digitsToNat, isDigits, arrPlace, toJson, toJsonEntries,
      arrElems, jsGet, jsSet, keyVal, natToStr_zero, List.range_succ,
      conv_toSVal_scalar a ha, toJson_toSVal_scalar a ha]
  · have h1 : placeAll [("0", a), ("x", b)] "." =
        .ok (SVal.cont false [("0", toSVal a), ("x", toSVal b)]) := by
      simp [placeAll, placeLoop, placeEntry, splitKey, splitSub, jsEntries, sortIdx,
        insSorted, jsSet, jsGet, isArrayIndexStr, digitsToNat, isDigits, keyVal]
    simp only [unflatten, h1]
    simp [maybeConvertToArray, convertEntries, jsEntries, sortIdx, insSorted,
      isArrayIndexStr, digitsToNat, isDigits, arrPlace, toJson, toJsonEntries,
      arrElems, jsGet, keyVal,
      conv_toSVal_scalar a ha, conv_toSVal_scalar b hb,
      toJson_toSVal_scalar a ha, toJson_toSVal_scalar b hb]

/-- Witness for the amended C8 theorem at string scalars. -/
theorem C8_numericFinalize_amended_witness :
    unflatten [("0", JsonValue.str "x"), ("1", JsonValue.str "y")] "." =
      .ok (JsonValue.arr [JsonValue.str "x", JsonValue.str "y"]) :=
  (C8_numericFinalize_amended (JsonValue.str "x") (JsonValue.str "y") rfl rfl).1

/-- Reading back a just-assigned property yields the assigned value. -/
theorem jsGet_jsSet_self (es : List (String × α)) (k : String) (v : α) :
    jsGet (jsSet es k v) k = some v := by
  induction es with
  | nil => simp [jsSet, jsGet]
  | cons h t ih =>
    by_cases hk : h.1 = k
    · simp [jsSet, jsGet, hk]
    · by_cases ht : t.any (fun kv => kv.1 = k)
      · have hany : (h :: t).any (fun kv => kv.1 = k) = true := by simp [List.any_cons, ht]
        have iht : jsGet (t.map (fun kv => if kv.1 = k then (k, v) else kv)) k = some v := by
          have := ih
          simp [jsSet, ht] at this
          exact this
        simp [jsSet, hany, jsGet, hk] at iht ⊢
        exact iht
      · have hany : (h :: t).any (fun kv => kv.1 = k) = false := by
          simp [List.any_cons, ht, hk]
        have iht : jsGet (t ++ [(k, v)]) k = some v := by
          have := ih
          simp [jsSet, ht] at this
          exact this
        simp [jsSet, hany, jsGet, hk] at iht ⊢
        exact iht

/-- Placement never changes the shape of the value it is applied to: a
container stays a container of the same array/map kind (only its properties
change), and a primitive survives unchanged. -/
theorem placeEntry_shape (cur : SVal) (steps : List String) (val : JsonValue)
    (cur2 : SVal) (h : placeEntry cur steps val = .ok cur2) :
    contShape cur2 = contShape cur := by
  cases cur with
  | vnull => simp [placeEntry] at h
  | vbool b =>
    match steps with
    | [] => simp [placeEntry] at h
    | [last] => simp [placeEntry] at h; subst h; rfl
    | k :: next :: rest => simp [placeEntry] at h
  | vnum n =>
    match steps with
    | [] => simp [placeEntry] at h
    | [last] => simp [placeEntry] at h; subst h; rfl
    | k :: next :: rest => simp [placeEntry] at h
  | vstr s =>
    match steps with
    | [] => simp [placeEntry] at h
    | [last] => simp [placeEntry] at h; subst h; rfl
    | k :: next :: rest => simp [placeEntry] at h
  | cont a es =>
    match steps with
    | [] => simp [placeEntry] at h
    | [last] => simp [placeEntry] at h; subst h; rfl
    | k :: next :: rest =>
      simp only [placeEntry] at h
      cases hpe : placeEntry
          (match jsGet es k with
            | some c => c
            | none => if isDigits next then SVal.cont true [] else SVal.cont false [])
          (next :: rest) val with
      | ok child2 => rw [hpe] at h; simp at h; subst h; rfl
      | error e => rw [hpe] at h; simp at h

/-- A missing child created during placement is a sequence-staging container
exactly when the next step of the creating path is all-digits. -/
theorem placeEntry_creates (a : Bool) (es : List (String × SVal)) (k next : String)
    (rest : List String) (val : JsonValue) (r : SVal)
    (hmiss : jsGet es k = none)
    (h : placeEntry (.cont a es) (k :: next :: rest) val = .ok r) :
    ∃ es2 c, r = .cont a es2 ∧ jsGet es2 k = some c ∧
      contShape c = some (isDigits next) := by
  simp only [placeEntry, hmiss] at h
  cases hd : isDigits next with
  | true =>
    simp only [hd, if_true] at h
    cases hpe : placeEntry (SVal.cont true []) (next :: rest) val with
    | ok child2 =>
      rw [hpe] at h
      simp at h
      refine ⟨jsSet es k child2, child2, h.symm, jsGet_jsSet_self es k child2, ?_⟩
      have := placeEntry_shape _ _ _ _ hpe
      rw [this]
      rfl
    | error e => rw [hpe] at h; simp at h
  | false =>
    simp only [hd, Bool.false_eq_true, if_false] at h
    cases hpe : placeEntry (SVal.cont false []) (next :: rest) val with
    | ok child2 =>
      rw [hpe] at h
      simp at h
      refine ⟨jsSet es k child2, child2, h.symm, jsGet_jsSet_self es k child2, ?_⟩
      have := placeEntry_shape _ _ _ _ hpe
      rw [this]
      rfl
    | error e => rw [hpe] at h; simp at h

/-- C10: the shape of each intermediate container is fixed by the first
entry whose path creates it — created as a sequence-staging container if and
only if the next step of that path is an all-digit string — and no later
placement changes an existing value's container shape; later entries only
add or overwrite children. -/
theorem C10_shapeInvariant :
    (∀ (cur : SVal) (steps : List String) (val : JsonValue) (cur2 : SVal),
        placeEntry cur steps val = .ok cur2 → contShape cur2 = contShape cur) ∧
    (∀ (a : Bool) (es : List (String × SVal)) (k next : String) (rest : List String)
        (val : JsonValue) (r : SVal),
        jsGet es k = none →
        placeEntry (.cont a es) (k :: next :: rest) val = .ok r →
        ∃ es2 c, r = .cont a es2 ∧ jsGet es2 k = some c ∧
          contShape c = some (isDigits next)) :=
  ⟨placeEntry_shape, placeEntry_creates⟩

/-- Witness for C10: placing `1` at `["a"]` into an object root preserves the
root's shape, and placing at `["a", "0"]` into an empty object root creates a
sequence-staging child under `"a"`. -/
theorem C10_shapeInvariant_witness :
    contShape (SVal.cont false [("a", SVal.vnum 1)]) = contShape (SVal.cont false []) ∧
    ∃ es2 c, SVal.cont false [("a", SVal.cont true [("0", SVal.vnum 1)])] = SVal.cont false es2 ∧
      jsGet es2 "a" = some c ∧ contShape c = some (isDigits "0") := by
  constructor
  · exact C10_shapeInvariant.1 (SVal.cont false []) ["a"] (JsonValue.num 1)
      (SVal.cont false [("a", SVal.vnum 1)])
      (by simp [placeEntry, jsSet, toSVal])
  · exact C10_shapeInvariant.2 false [] "a" "0" [] (JsonValue.num 1)
      (SVal.cont false [("a", SVal.cont true [("0", SVal.vnum 1)])])
      (by simp [jsGet])
      (by simp [placeEntry, jsGet, jsSet, isDigits, toSVal])

/-- Splitting always yields at least one piece. -/
theorem splitSub_ne_nil (d : List Char) (s : List Char) : splitSub d s ≠ [] := by
  refine splitSub.induct d (fun s => splitSub d s ≠ []) ?_ ?_ ?_ ?_ s
  · simp [splitSub]
  · intro c rest h ih
    simp [splitSub, h]
  · intro c rest h hnil ih
    exact absurd hnil ih
  · intro c rest h t ts hcons ih
    have h2 : ¬(¬d = [] ∧ d <+: c :: rest) := by
      simpa [List.isPrefixOf_iff_prefix] using h
    simp [splitSub, h2, hcons]

/-- Joining distributes over a leading character of the first piece. -/
theorem intercalateChars_cons_cons (d : List Char) (c : Char) (t : List Char)
    (ts : List (List Char)) :
    intercalateChars d ((c :: t) :: ts) = c :: intercalateChars d (t :: ts) := by
  cases ts <;> simp [intercalateChars]

/-- The first piece of a split is a prefix of the split string. -/
theorem splitSub_headPrefix (d s : List Char) :
    ∀ t ts, splitSub d s = t :: ts → t <+: s := by
  refine splitSub.induct d (fun s => ∀ t ts, splitSub d s = t :: ts → t <+: s) ?_ ?_ ?_ ?_ s
  · intro t ts h
    simp [splitSub] at h
    obtain ⟨h1, h2⟩ := h
    subst h1
    exact List.nil_prefix
  · intro c rest h ih t ts hsp
    simp [splitSub, h] at hsp
    obtain ⟨h1, h2⟩ := hsp
    subst h1
    exact List.nil_prefix
  · intro c rest h hnil ih
    exact absurd hnil (splitSub_ne_nil d rest)
  · intro c rest h t0 ts0 hcons ih t ts hsp
    have h2 : ¬(¬d = [] ∧ d <+: c :: rest) := by
      simpa [List.isPrefixOf_iff_prefix] using h
    simp [splitSub, h2, hcons] at hsp
    rw [← hsp.1]
    exact (List.cons_prefix_cons).mpr ⟨rfl, ih t0 ts0 hcons⟩

/-- Joining the pieces with the delimiter restores the original string:
the split is a partition of the input. -/
theorem splitSub_join (d : List Char) (s : List Char) :
    intercalateChars d (splitSub d s) = s := by
  refine splitSub.induct d (fun s => intercalateChars d (splitSub d s) = s) ?_ ?_ ?_ ?_ s
  · simp [splitSub, intercalateChars]
  · intro c rest h ih
    have hsp : splitSub d (c :: rest) = [] :: splitSub d ((c :: rest).drop d.length) := by
      simp [splitSub, h]
    obtain ⟨t, ts, hts⟩ : ∃ t ts, splitSub d ((c :: rest).drop d.length) = t :: ts := by
      cases hx : splitSub d ((c :: rest).drop d.length) with
      | nil => exact absurd hx (splitSub_ne_nil d _)
      | cons a b => exact ⟨a, b, rfl⟩
    rw [hts] at ih
    rw [hsp, hts]
    show [] ++ d ++ intercalateChars d (t :: ts) = c :: rest
    rw [List.nil_append, ih]
    obtain ⟨u, hu⟩ := List.isPrefixOf_iff_prefix.mp h.2
    rw [← hu, List.drop_left]
  · intro c rest h hnil ih
    exact absurd hnil (splitSub_ne_nil d rest)
  · intro c rest h t ts hcons ih
    have h2 : ¬(¬d = [] ∧ d <+: c :: rest) := by
      simpa [List.isPrefixOf_iff_prefix] using h
    have hsp : splitSub d (c :: rest) = (c :: t) :: ts := by
      simp [splitSub, h2, hcons]
    rw [hcons] at ih
    rw [hsp, intercalateChars_cons_cons, ih]

/-- No piece of a split contains the (non-empty) delimiter: the split really
happens at every literal occurrence. -/
theorem splitSub_pieces (d : List Char) (hd : d ≠ []) (s : List Char) :
    ∀ p ∈ splitSub d s, ¬ d <:+: p := by
  refine splitSub.induct d (fun s => ∀ p ∈ splitSub d s, ¬ d <:+: p) ?_ ?_ ?_ ?_ s
  · intro p hp
    simp [splitSub] at hp
    rw [hp]
    simp [hd]
  · intro c rest h ih p hp
    rw [show splitSub d (c :: rest) = [] :: splitSub d ((c :: rest).drop d.length) by
      simp [splitSub, h]] at hp
    rcases List.mem_cons.mp hp with hp1 | hp2
    · rw [hp1]
      simp [hd]
    · exact ih p hp2
  · intro c rest h hnil ih
    exact fun p hp => absurd hnil (splitSub_ne_nil d rest)
  · intro c rest h t ts hcons ih p hp
    have h2 : ¬(¬d = [] ∧ d <+: c :: rest) := by
      simpa [List.isPrefixOf_iff_prefix] using h
    rw [show splitSub d (c :: rest) = (c :: t) :: ts by simp [splitSub, h2, hcons]] at hp
    rcases List.mem_cons.mp hp with hp1 | hp2
    · rw [hp1]
      intro hinf
      rcases List.infix_cons_iff.mp hinf with hpre | hinf2
      · have ht : t <+: rest := splitSub_headPrefix d rest t ts hcons
        have : d <+: c :: rest :=
          hpre.trans ((List.cons_prefix_cons).mpr ⟨rfl, ht⟩)
        exact h2 ⟨hd, this⟩
      · exact ih t (by rw [hcons]; exact List.mem_cons_self t ts) hinf2
    · exact ih p (by rw [hcons]; exact List.mem_cons_of_mem t hp2)

/-- Character-level view of the fold that joins steps. -/
theorem foldl_join_data (d : String) (l : List (List Char)) (init : String) :
    ((l.map String.mk).foldl (fun a t => a ++ d ++ t) init).data =
      init.data ++ (l.map (fun p => d.data ++ p)).flatten := by
  induction l generalizing init with
  | nil => simp
  | cons p rest ih =>
    simp only [List.map_cons, List.foldl_cons, ih, List.flatten_cons]
    simp [String.data_append, List.append_assoc]

/-- Flattened form of the character-level join. -/
theorem intercalateChars_eq_flatten (d : String) (p : List Char) (rest : List (List Char)) :
    intercalateChars d.data (p :: rest) =
      p ++ (rest.map (fun q => d.data ++ q)).flatten := by
  induction rest generalizing p with
  | nil => simp [intercalateChars]
  | cons q rest2 ih =>
    simp [intercalateChars, ih, List.append_assoc]

/-- The character data of a joined step list is the character-level join. -/
theorem joinSteps_data (d : String) (l : List (List Char)) :
    (joinSteps d (l.map String.mk)).data = intercalateChars d.data l := by
  cases l with
  | nil => rfl
  | cons p rest =>
    show ((rest.map String.mk).foldl (fun a t => a ++ d ++ t) (String.mk p)).data = _
    rw [foldl_join_data, intercalateChars_eq_flatten]

/-- Both branches of `splitKey` (the delimiter-`"."` special case and the
general case) perform the same literal split. -/
theorem splitKey_eq_map (s d : String) :
    splitKey s d = (splitSub d.data s.data).map String.mk := by
  by_cases hdot : d = "."
  · subst hdot
    simp [splitKey]
  · simp [splitKey, hdot]

/-- Rejoining the steps of a split path with the delimiter restores the
path, for every path and every delimiter. -/
theorem joinSteps_splitKey (s d : String) : joinSteps d (splitKey s d) = s := by
  rw [splitKey_eq_map]
  apply String.ext
  rw [joinSteps_data, splitSub_join]

/-- No step produced by `splitKey` contains the delimiter as a substring. -/
theorem splitKey_pieces (s d : String) (hd : d ≠ "") :
    ∀ p ∈ splitKey s d, ¬ d.data <:+: p.data := by
  intro p hp
  rw [splitKey_eq_map] at hp
  obtain ⟨q, hq, hmk⟩ := List.mem_map.mp hp
  have hdd : d.data ≠ [] := by
    intro h0
    exact hd (String.ext h0)
  subst hmk
  exact splitSub_pieces d.data hdd s.data q hq

/-- C9: the path codec decodes by literal substring split — rejoining the
steps restores the path and no step retains an occurrence of the (non-empty)
delimiter, for every path and delimiter including multi-character ones
(`splitKey "a:b::c" "::"` is `["a:b", "c"]`, not a per-character split) —
and encoding joins steps with the delimiter, so
`flatten {"user":{"name":"John"}} "/"` is exactly `{"user/name": "John"}`. -/
theorem C9_pathCodec :
    (∀ (s d : String), d ≠ "" →
      joinSteps d (splitKey s d) = s ∧ ∀ p ∈ splitKey s d, ¬ d.data <:+: p.data) ∧
    splitKey "a:b::c" "::" = ["a:b", "c"] ∧
    flatten (JsonValue.obj [("user", JsonValue.obj [("name", JsonValue.str "John")])]) "/" "" [] =
      [("user/name", JsonValue.str "John")] := by
  refine ⟨fun s d hd => ⟨joinSteps_splitKey s d, splitKey_pieces s d hd⟩, ?_, ?_⟩
  · simp [splitKey, splitSub]
  · simp [flatten, flattenObj, flattenArr, jsEntries, sortIdx, insSorted, jsSet,
      isArrayIndexStr, digitsToNat, childKey]

/-- Witness for C9's universal part at the path `user.address.city` with
delimiter `"."`. -/
theorem C9_pathCodec_witness :
    ("." : String) ≠ "" ∧
    joinSteps "." (splitKey "user.address.city" ".") = "user.address.city" :=
  ⟨by decide, (C9_pathCodec.1 "user.address.city" "." (by decide)).1⟩

/-- The `**`-replacement pass is the identity on a star-free string (after
the `*` pass has run, no `**` can remain). -/
theorem replaceSub_id (r l : List Char) (h : '*' ∉ l) :
    replaceSub "**".data r l = l := by
  induction l with
  | nil => simp [replaceSub]
  | cons c rest ih =>
    have hc : c ≠ '*' := fun hceq => h (hceq ▸ List.mem_cons_self c rest)
    have hnp : ¬("**".data ≠ [] ∧ "**".data.isPrefixOf (c :: rest) = true) := by
      intro ⟨_, hp⟩
      simp [List.isPrefixOf] at hp
      exact hc (hp.1.symm)
    have hrest : '*' ∉ rest := fun hr => h (List.mem_cons_of_mem c hr)
    simp [replaceSub, hnp, ih hrest]
    intro h1 h2
    exact absurd h1.symm hc

/-- The `*`-replacement pass is the identity on a star-free string. -/
theorem starRe_id (l : List Char) (h : '*' ∉ l) : starRe l = l := by
  induction l with
  | nil => rfl
  | cons c rest ih =>
    have hc : c ≠ '*' := fun hceq => h (hceq ▸ List.mem_cons_self c rest)
    have hrest : '*' ∉ rest := fun hr => h (List.mem_cons_of_mem c hr)
    have hr := ih hrest
    simp only [starRe, List.flatMap_cons] at hr ⊢
    rw [if_neg hc, hr]
    rfl

/-- Escaping introduces no star. -/
theorem star_not_mem_escapeRe (l : List Char) (h : '*' ∉ l) : '*' ∉ escapeRe l := by
  intro hmem
  simp only [escapeRe, List.mem_flatMap] at hmem
  obtain ⟨c, hc, hin⟩ := hmem
  have hcs : c ≠ '*' := fun hceq => h (hceq ▸ hc)
  by_cases hm : reMetaChars.contains c = true
  · rw [if_pos hm] at hin
    simp at hin
    exact hcs hin.symm
  · rw [if_neg hm] at hin
    simp at hin
    exact hcs hin.symm

/-- When the remaining input does not contain a star at all, the atom just
parsed is unquantified. -/
theorem withStar_no_star (a : RAtom) (rest : List Char) (h : '*' ∉ rest) :
    withStar a rest = (tokenize rest).map (fun ts => (a, false) :: ts) := by
  cases rest with
  | nil => simp [withStar]
  | cons c2 l2 =>
    have hc2 : c2 ≠ '*' := fun he => h (he ▸ List.mem_cons_self c2 l2)
    simp [withStar, hc2]

/-- An unescaped ordinary character parses as a literal atom. -/
theorem tokenize_plain (c : Char) (rest : List Char) (h1 : c ≠ '\\') (h2 : c ≠ '[')
    (h3 : c ≠ ']') (h4 : c ≠ '.') (h5 : c ≠ '*') :
    tokenize (c :: rest) = withStar (RAtom.lit c) rest := by
  simp [tokenize, h1, h2, h3, h4, h5]

/-- The compiled form of a star-free pattern parses as the sequence of its
characters as literal atoms: the escaping pass makes every metacharacter
literal. -/
theorem tokenize_escapeRe (l : List Char) (h : '*' ∉ l) :
    tokenize (escapeRe l) = some (l.map (fun c => (RAtom.lit c, false))) := by
  induction l with
  | nil => simp [escapeRe, tokenize]
  | cons c rest ih =>
    have hc : c ≠ '*' := fun he => h (he ▸ List.mem_cons_self c rest)
    have hrest : '*' ∉ rest := fun hr => h (List.mem_cons_of_mem c hr)
    have hstar := star_not_mem_escapeRe rest hrest
    have ihr := ih hrest
    by_cases hm : c ∈ reMetaChars
    · have he : escapeRe (c :: rest) = '\\' :: c :: escapeRe rest := by
        simp [escapeRe, hm]
      have ht : tokenize ('\\' :: c :: escapeRe rest) = withStar (RAtom.lit c) (escapeRe rest) := by
        simp [tokenize]
      rw [he, ht, withStar_no_star _ _ hstar, ihr]
      simp
    · have he : escapeRe (c :: rest) = c :: escapeRe rest := by
        simp [escapeRe, hm]
      have h1 : c ≠ '\\' := fun hq => hm (by rw [hq]; decide)
      have h2 : c ≠ '[' := fun hq => hm (by rw [hq]; decide)
      have h3 : c ≠ ']' := fun hq => hm (by rw [hq]; decide)
      have h4 : c ≠ '.' := fun hq => hm (by rw [hq]; decide)
      rw [he, tokenize_plain c _ h1 h2 h3 h4 hc, withStar_no_star _ _ hstar, ihr]
      simp

/-- A sequence of unquantified literal atoms matches exactly the string of
those characters (this is whole-string anchoring plus correct escaping). -/
theorem matchToks_lits (l : List Char) (s : List Char) :
    matchToks (l.map (fun c => (RAtom.lit c, false))) s = true ↔ s = l := by
  induction l generalizing s with
  | nil =>
    cases s <;> simp [matchToks]
  | cons c rest ih =>
    cases s with
    | nil => simp [matchToks]
    | cons a as =>
      simp [matchToks, amatch, ih as]

/-- A pattern without any `*` matches exactly the path equal to the pattern
itself. -/
theorem testPattern_no_star (p s : String) (h : '*' ∉ p.data) :
    (testPattern p s = true ↔ s = p) := by
  have hstar := star_not_mem_escapeRe p.data h
  have hcompiled : compiledRe p = escapeRe p.data := by
    rw [compiledRe, starRe_id _ hstar, replaceSub_id _ _ hstar]
  rw [testPattern, hcompiled, tokenize_escapeRe _ h]
  show matchToks _ s.data = true ↔ _
  rw [matchToks_lits]
  constructor
  · intro hdata
    exact String.ext hdata
  · intro he
    rw [he]

/-- The quantified `[^.]*` atom alone matches exactly the strings free of
the dot character, of any length including zero. -/
theorem matchToks_nonDotStar (t : List Char) :
    matchToks [(RAtom.nonDot, true)] t = true ↔ ∀ c ∈ t, c ≠ '.' := by
  induction t with
  | nil => simp [matchToks]
  | cons c cs ih => simp [matchToks, amatch, ih]

/-- Peeling a literal prefix off an anchored match. -/
theorem matchToks_lits_append (l : List Char) (ts : List (RAtom × Bool)) (s : List Char) :
    matchToks (l.map (fun c => (RAtom.lit c, false)) ++ ts) s = true ↔
      ∃ t, s = l ++ t ∧ matchToks ts t = true := by
  induction l generalizing s with
  | nil => simp
  | cons c rest ih =>
    cases s with
    | nil => simp [matchToks]
    | cons a as =>
      simp [matchToks, amatch, ih as]
      constructor
      · rintro ⟨hac, t, h1, h2⟩
        exact ⟨t, ⟨hac, h1⟩, h2⟩
      · rintro ⟨t, ⟨hac, h1⟩, h2⟩
        exact ⟨hac, t, h1, h2⟩

/-- Parsed form of the compiled pattern `user.*`. -/
theorem tokenize_userStar :
    tokenize (compiledRe "user.*") =
      some (("user.".data.map (fun c => (RAtom.lit c, false))) ++ [(RAtom.nonDot, true)]) := by
  simp [compiledRe, escapeRe, starRe, replaceSub, reMetaChars, tokenize, withStar]

/-- Characterization of the compiled pattern `user.*`: it accepts exactly
the paths `"user." ++ t` where `t` contains no dot — including the empty
`t`. -/
theorem testPattern_userStar (s : String) :
    testPattern "user.*" s = true ↔
      ∃ t, s.data = "user.".data ++ t ∧ ∀ c ∈ t, c ≠ '.' := by
  rw [testPattern, tokenize_userStar]
  show matchToks _ s.data = true ↔ _
  rw [matchToks_lits_append]
  constructor
  · rintro ⟨t, h1, h2⟩
    exact ⟨t, h1, (matchToks_nonDotStar t).mp h2⟩
  · rintro ⟨t, h1, h2⟩
    exact ⟨t, h1, (matchToks_nonDotStar t).mpr h2⟩

/-- C3 (amended): the pattern is escaped for every regex metacharacter
except `*`; a star-free pattern therefore matches exactly itself
(whole-string anchored).  A lone `*` compiles to `[^.]*`: zero or more
characters other than the literal dot, regardless of the configured
delimiter — `user.*` accepts exactly the paths `user.` followed by a
dot-free (possibly empty) tail, so it matches `user.name` and `user.age`
but not `user.address.city`. -/
theorem C3_star_amended :
    (∀ (p s : String), '*' ∉ p.data → (testPattern p s = true ↔ s = p)) ∧
    (∀ s : String, testPattern "user.*" s = true ↔
        ∃ t, s.data = "user.".data ++ t ∧ ∀ c ∈ t, c ≠ '.') ∧
    testPattern "user.*" "user.name" = true ∧
    testPattern "user.*" "user.age" = true ∧
    testPattern "user.*" "user.address.city" = false := by
  refine ⟨testPattern_no_star, testPattern_userStar, ?_, ?_, ?_⟩ <;>
    simp [testPattern, compiledRe, escapeRe, starRe, replaceSub, reMetaChars,
      tokenize, withStar, matchToks, amatch]

/-- Witness for the amended C3: the star-free pattern `abc` matches the path
`abc`, and `user.*` matches `user.name`. -/
theorem C3_star_amended_witness :
    testPattern "abc" "abc" = true ∧ testPattern "user.*" "user.name" = true := by
  constructor
  · exact (C3_star_amended.1 "abc" "abc" (by decide)).mpr rfl
  · exact (C3_star_amended.2.1 "user.name").mpr
      ⟨"name".data, by decide, by decide⟩

/-- Nested induction principle for `JsonValue` (descending through the
entry lists of containers), proved by strong induction on size. -/
theorem jsonInduction {P : JsonValue → Prop}
    (hnull : P .null) (hbool : ∀ b, P (.bool b)) (hnum : ∀ n, P (.num n))
    (hstr : ∀ s, P (.str s))
    (harr : ∀ xs, (∀ x ∈ xs, P x) → P (.arr xs))
    (hobj : ∀ es, (∀ kv ∈ es, P kv.2) → P (.obj es)) :
    ∀ v, P v := by
  have main : ∀ (n : Nat) (v : JsonValue), sizeOf v ≤ n → P v := by
    intro n
    induction n using Nat.strong_induction_on with
    | _ n ih =>
      intro v hv
      match v with
      | .null => exact hnull
      | .bool b => exact hbool b
      | .num m => exact hnum m
      | .str s => exact hstr s
      | .arr xs =>
        refine harr xs (fun x hx => ?_)
        have h1 : sizeOf x < sizeOf (JsonValue.arr xs) := by
          have := List.sizeOf_lt_of_mem hx
          simp only [JsonValue.arr.sizeOf_spec]
          omega
        have h2 : sizeOf (JsonValue.arr xs) ≤ n := hv
        cases n with
        | zero => omega
        | succ m => exact ih m (by omega) x (by omega)
      | .obj es =>
        refine hobj es (fun kv hkv => ?_)
        have h0 : sizeOf kv.2 < sizeOf kv := by
          obtain ⟨k, x⟩ := kv
          simp
          try omega
        have h1 : sizeOf kv.2 < sizeOf (JsonValue.obj es) := by
          have := List.sizeOf_lt_of_mem hkv
          simp only [JsonValue.obj.sizeOf_spec]
          omega
        cases n with
        | zero => omega
        | succ m => exact ih m (by omega) kv.2 (by omega)
  exact fun v => main (sizeOf v) v (Nat.le_refl _)

/-- Membership in a sorted insertion. -/
theorem mem_insSorted (kv x : String × α) (l : List (String × α)) :
    x ∈ insSorted kv l ↔ x ∈ kv :: l := by
  induction l with
  | nil => simp [insSorted]
  | cons a t ih =>
    by_cases hc : keyVal kv.1 < keyVal a.1
    · simp [insSorted, hc]
    · simp [insSorted, hc, ih]
      tauto

/-- Sorting preserves membership. -/
theorem mem_sortIdx (x : String × α) (l : List (String × α)) :
    x ∈ sortIdx l ↔ x ∈ l := by
  induction l with
  | nil => simp [sortIdx]
  | cons a t ih =>
    show x ∈ insSorted a (sortIdx t) ↔ _
    rw [mem_insSorted]
    simp [ih]

/-- Everything enumerated by `jsEntries` is an entry of the object. -/
theorem mem_jsEntries (x : String × α) (l : List (String × α)) (h : x ∈ jsEntries l) :
    x ∈ l := by
  rw [jsEntries] at h
  rcases List.mem_append.mp h with h1 | h2
  · exact List.mem_of_mem_filter ((mem_sortIdx x _).mp h1)
  · exact List.mem_of_mem_filter h2

/-- Assigning a fresh key appends the new property at the end. -/
theorem jsSet_fresh (res : List (String × α)) (k : String) (v : α)
    (h : ∀ kv ∈ res, kv.1 ≠ k) :
    jsSet res k v = res ++ [(k, v)] := by
  have hany : res.any (fun kv => kv.1 = k) = false := by
    rw [List.any_eq_false]
    intro kv hkv
    simp [h kv hkv]
  simp [jsSet, hany]

/-- Peeling one step off an accumulated path. -/
theorem pathOf_cons (pre d s : String) (p : List String) :
    pathOf pre d (s :: p) = pathOf (childKey pre d s) d p := rfl

/-- The array loop of `flatten` appends, in order, the joined pre-order
leaves of its elements, as long as all the emitted paths are fresh and
distinct. -/
theorem flattenArr_eq (d : String) (l : List JsonValue)
    (hP : ∀ x ∈ l, ∀ (pre : String) (res : List (String × JsonValue)),
      (res.map (fun kv => kv.1) ++ (leaves x).map (fun pv => pathOf pre d pv.1)).Nodup →
      flatten x d pre res = res ++ (leaves x).map (fun pv => (pathOf pre d pv.1, pv.2))) :
    ∀ (i : Nat) (pre : String) (res : List (String × JsonValue)),
      (res.map (fun kv => kv.1) ++ (leavesArr l i).map (fun pv => pathOf pre d pv.1)).Nodup →
      flattenArr l i d pre res =
        res ++ (leavesArr l i).map (fun pv => (pathOf pre d pv.1, pv.2)) := by
  induction l with
  | nil =>
    intro i pre res hnd
    simp [flattenArr, leavesArr]
  | cons x xs ih =>
    intro i pre res hnd
    have hla : leavesArr (x :: xs) i =
        (leaves x).map (fun pv => (natToStr i :: pv.1, pv.2)) ++ leavesArr xs (i + 1) := by
      simp [leavesArr]
    have hkA : ((leaves x).map (fun pv => ((natToStr i :: pv.1 : List String), pv.2))).map
          (fun pv => pathOf pre d pv.1)
        = (leaves x).map (fun pv => pathOf (childKey pre d (natToStr i)) d pv.1) := by
      simp only [List.map_map]
      rfl
    have heA : ((leaves x).map (fun pv => ((natToStr i :: pv.1 : List String), pv.2))).map
          (fun pv => (pathOf pre d pv.1, pv.2))
        = (leaves x).map (fun pv => (pathOf (childKey pre d (natToStr i)) d pv.1, pv.2)) := by
      simp only [List.map_map]
      rfl
    rw [hla, List.map_append, hkA, ← List.append_assoc] at hnd
    have hndx : (res.map (fun kv => kv.1) ++
        (leaves x).map (fun pv => pathOf (childKey pre d (natToStr i)) d pv.1)).Nodup :=
      hnd.of_append_left
    have hx := hP x (List.mem_cons_self x xs) (childKey pre d (natToStr i)) res hndx
    have hstep : flattenArr (x :: xs) i d pre res =
        flattenArr xs (i + 1) d pre (flatten x d (childKey pre d (natToStr i)) res) := by
      simp [flattenArr]
    rw [hstep, hx]
    have hkeys : ((res ++ (leaves x).map
          (fun pv => (pathOf (childKey pre d (natToStr i)) d pv.1, pv.2))).map
            (fun kv => kv.1))
        = res.map (fun kv => kv.1) ++
          (leaves x).map (fun pv => pathOf (childKey pre d (natToStr i)) d pv.1) := by
      simp only [List.map_append, List.map_map]
      rfl
    have hnd2 : (((res ++ (leaves x).map
          (fun pv => (pathOf (childKey pre d (natToStr i)) d pv.1, pv.2))).map
            (fun kv => kv.1)) ++
          (leavesArr xs (i + 1)).map (fun pv => pathOf pre d pv.1)).Nodup := by
      rw [hkeys]
      exact hnd
    have := ih (fun y hy => hP y (List.mem_cons_of_mem x hy)) (i + 1) pre
      (res ++ (leaves x).map (fun pv => (pathOf (childKey pre d (natToStr i)) d pv.1, pv.2)))
      hnd2
    rw [this, hla, List.map_append, heA, List.append_assoc]

/-- The object loop of `flatten` appends, in order, the joined pre-order
leaves of the entries it is given, under the same freshness condition. -/
theorem flattenObj_eq (d : String) (l : List (String × JsonValue))
    (hP : ∀ kx ∈ l, ∀ (pre : String) (res : List (String × JsonValue)),
      (res.map (fun kv => kv.1) ++ (leaves kx.2).map (fun pv => pathOf pre d pv.1)).Nodup →
      flatten kx.2 d pre res =
        res ++ (leaves kx.2).map (fun pv => (pathOf pre d pv.1, pv.2))) :
    ∀ (pre : String) (res : List (String × JsonValue)),
      (res.map (fun kv => kv.1) ++ (leavesObj l).map (fun pv => pathOf pre d pv.1)).Nodup →
      flattenObj l d pre res =
        res ++ (leavesObj l).map (fun pv => (pathOf pre d pv.1, pv.2)) := by
  induction l with
  | nil =>
    intro pre res hnd
    simp [flattenObj, leavesObj]
  | cons kx xs ih =>
    obtain ⟨k, x⟩ := kx
    intro pre res hnd
    have hla : leavesObj ((k, x) :: xs) =
        (leaves x).map (fun pv => (k :: pv.1, pv.2)) ++ leavesObj xs := by
      simp [leavesObj]
    have hkA : ((leaves x).map (fun pv => ((k :: pv.1 : List String), pv.2))).map
          (fun pv => pathOf pre d pv.1)
        = (leaves x).map (fun pv => pathOf (childKey pre d k) d pv.1) := by
      simp only [List.map_map]
      rfl
    have heA : ((leaves x).map (fun pv => ((k :: pv.1 : List String), pv.2))).map
          (fun pv => (pathOf pre d pv.1, pv.2))
        = (leaves x).map (fun pv => (pathOf (childKey pre d k) d pv.1, pv.2)) := by
      simp only [List.map_map]
      rfl
    rw [hla, List.map_append, hkA, ← List.append_assoc] at hnd
    have hndx : (res.map (fun kv => kv.1) ++
        (leaves x).map (fun pv => pathOf (childKey pre d k) d pv.1)).Nodup :=
      hnd.of_append_left
    have hx := hP (k, x) (List.mem_cons_self (k, x) xs) (childKey pre d k) res hndx
    have hstep : flattenObj ((k, x) :: xs) d pre res =
        flattenObj xs d pre (flatten x d (childKey pre d k) res) := by
      simp [flattenObj]
    rw [hstep, hx]
    have hkeys : ((res ++ (leaves x).map
          (fun pv => (pathOf (childKey pre d k) d pv.1, pv.2))).map (fun kv => kv.1))
        = res.map (fun kv => kv.1) ++
          (leaves x).map (fun pv => pathOf (childKey pre d k) d pv.1) := by
      simp only [List.map_append, List.map_map]
      rfl
    have hnd2 : (((res ++ (leaves x).map
          (fun pv => (pathOf (childKey pre d k) d pv.1, pv.2))).map (fun kv => kv.1)) ++
          (leavesObj xs).map (fun pv => pathOf pre d pv.1)).Nodup := by
      rw [hkeys]
      exact hnd
    have := ih (fun y hy => hP y (List.mem_cons_of_mem (k, x) hy)) pre
      (res ++ (leaves x).map (fun pv => (pathOf (childKey pre d k) d pv.1, pv.2))) hnd2
    rw [this, hla, List.map_append, heA, List.append_assoc]

/-- Freshness of the next path, extracted from distinctness of the whole. -/
theorem fresh_of_nodup (res : List (String × JsonValue)) (pre : String) (L : List String)
    (hmem : pre ∈ L) (hnd : (res.map (fun kv => kv.1) ++ L).Nodup) :
    ∀ kv ∈ res, kv.1 ≠ pre := by
  intro kv hkv he
  rw [List.nodup_append] at hnd
  have h1 : pre ∈ res.map (fun kv => kv.1) := by
    rw [← he]
    exact List.mem_map_of_mem _ hkv
  exact hnd.2.2 h1 hmem

/-- Central characterization of the flattener: whenever the emitted paths
are pairwise distinct (and fresh for the accumulator), `flatten` appends
exactly the joined depth-first pre-order leaves, with object keys in
enumeration order and indices ascending. -/
theorem flatten_eq_leaves (v : JsonValue) :
    ∀ (d pre : String) (res : List (String × JsonValue)),
      (res.map (fun kv => kv.1) ++ (leaves v).map (fun pv => pathOf pre d pv.1)).Nodup →
      flatten v d pre res = res ++ (leaves v).map (fun pv => (pathOf pre d pv.1, pv.2)) := by
  induction v using jsonInduction with
  | hnull =>
    intro d pre res hnd
    have hfresh := fresh_of_nodup res pre _ (by simp [leaves, pathOf]) hnd
    simp [flatten, leaves, pathOf, jsSet_fresh res pre _ hfresh]
  | hbool b =>
    intro d pre res hnd
    have hfresh := fresh_of_nodup res pre _ (by simp [leaves, pathOf]) hnd
    simp [flatten, leaves, pathOf, jsSet_fresh res pre _ hfresh]
  | hnum n =>
    intro d pre res hnd
    have hfresh := fresh_of_nodup res pre _ (by simp [leaves, pathOf]) hnd
    simp [flatten, leaves, pathOf, jsSet_fresh res pre _ hfresh]
  | hstr s =>
    intro d pre res hnd
    have hfresh := fresh_of_nodup res pre _ (by simp [leaves, pathOf]) hnd
    simp [flatten, leaves, pathOf, jsSet_fresh res pre _ hfresh]
  | harr xs hxs =>
    intro d pre res hnd
    cases xs with
    | nil =>
      have hfresh := fresh_of_nodup res pre _ (by simp [leaves, pathOf]) hnd
      simp [flatten, leaves, pathOf, jsSet_fresh res pre _ hfresh]
    | cons x xs2 =>
      have h1 : flatten (JsonValue.arr (x :: xs2)) d pre res =
          flattenArr (x :: xs2) 0 d pre res := by
        simp [flatten]
      have h2 : leaves (JsonValue.arr (x :: xs2)) = leavesArr (x :: xs2) 0 := by
        simp [leaves]
      rw [h1, h2]
      rw [h2] at hnd
      exact flattenArr_eq d (x :: xs2) (fun y hy => hxs y hy d) 0 pre res hnd
  | hobj es hes =>
    intro d pre res hnd
    cases es with
    | nil =>
      have hfresh := fresh_of_nodup res pre _ (by simp [leaves, pathOf]) hnd
      simp [flatten, leaves, pathOf, jsSet_fresh res pre _ hfresh]
    | cons e es2 =>
      have h1 : flatten (JsonValue.obj (e :: es2)) d pre res =
          flattenObj (jsEntries (e :: es2)) d pre res := by
        simp [flatten]
      have h2 : leaves (JsonValue.obj (e :: es2)) = leavesObj (jsEntries (e :: es2)) := by
        simp [leaves]
      rw [h1, h2]
      rw [h2] at hnd
      exact flattenObj_eq d (jsEntries (e :: es2))
        (fun kx hkx => hes kx (mem_jsEntries kx _ hkx) d) pre res hnd

/-- C4 (amended): provided the emitted paths are pairwise distinct, the
insertion order of `flatten v d` equals the depth-first pre-order traversal
of `v` with the keys of each map visited in JavaScript own-property
enumeration order (array-index-like keys first, ascending numerically, then
the remaining keys in original order) and sequence indices ascending.  For
maps with numeric-string keys in non-ascending original order, the original
order is exactly what is NOT preserved (see the counterexample). -/
theorem C4_preorder_amended (v : JsonValue) (d : String)
    (hnd : ((preorderFlat v d).map (fun kv => kv.1)).Nodup) :
    flatten v d "" [] = preorderFlat v d := by
  have hk : ((preorderFlat v d).map (fun kv => kv.1)) =
      (leaves v).map (fun pv => pathOf "" d pv.1) := by
    simp only [preorderFlat, List.map_map]
    rfl
  have hnd2 : (([] : List (String × JsonValue)).map (fun kv => kv.1) ++
      (leaves v).map (fun pv => pathOf "" d pv.1)).Nodup := by
    rw [← hk]
    simpa using hnd
  have := flatten_eq_leaves v d "" [] hnd2
  simpa [preorderFlat] using this

/-- Witness for the amended C4 at a map with numeric keys given in
descending order. -/
theorem C4_preorder_amended_witness :
    flatten (JsonValue.obj [("1", JsonValue.str "b"), ("0", JsonValue.str "a")]) "." "" [] =
      preorderFlat (JsonValue.obj [("1", JsonValue.str "b"), ("0", JsonValue.str "a")]) "." := by
  apply C4_preorder_amended
  simp [preorderFlat, leaves, leavesObj, leavesArr, jsEntries, sortIdx, insSorted,
    isArrayIndexStr, digitsToNat, keyVal, pathOf, childKey]

/-- Decimal digits are digits. -/
theorem natToDigits_all_digits (n : Nat) : (natToDigits n).all Char.isDigit = true := by
  induction n using Nat.strong_induction_on with
  | _ n ih =>
    by_cases h : n < 10
    · rw [natToDigits, dif_pos h]
      have h9 : n ≤ 9 := by omega
      interval_cases n <;> decide
    · rw [natToDigits, dif_neg h]
      rw [List.all_append]
      have h1 := ih (n / 10) (Nat.div_lt_self (by omega) (by decide))
      have h9 : n % 10 < 10 := Nat.mod_lt n (by decide)
      have h2 : ∀ m, m < 10 → (Char.ofNat (48 + m)).isDigit = true := by
        intro m hm
        interval_cases m <;> decide
      simp [h1, h2 (n % 10) h9]

/-- A decimal representation is never empty. -/
theorem natToDigits_ne_nil (n : Nat) : natToDigits n ≠ [] := by
  by_cases h : n < 10
  · rw [natToDigits, dif_pos h]
    simp
  · rw [natToDigits, dif_neg h]
    simp

theorem digitsToNat_append (a : List Char) (c : Char) :
    digitsToNat (a ++ [c]) = 10 * digitsToNat a + (c.toNat - 48) := by
  simp [digitsToNat, List.foldl_append]

/-- Reading the decimal digits of `n` back yields `n`. -/
theorem digitsToNat_natToDigits (n : Nat) : digitsToNat (natToDigits n) = n := by
  induction n using Nat.strong_induction_on with
  | _ n ih =>
    by_cases h : n < 10
    · rw [natToDigits, dif_pos h]
      have : ∀ m, m < 10 → digitsToNat [Char.ofNat (48 + m)] = m := by
        intro m hm
        interval_cases m <;> decide
      exact this n h
    · rw [natToDigits, dif_neg h]
      rw [digitsToNat_append, ih (n / 10) (Nat.div_lt_self (by omega) (by decide))]
      have h9 : n % 10 < 10 := Nat.mod_lt n (by decide)
      have : ∀ m, m < 10 → (Char.ofNat (48 + m)).toNat - 48 = m := by
        intro m hm
        interval_cases m <;> decide
      rw [this (n % 10) h9]
      omega

/-- Decimal strings of distinct numbers are distinct. -/
theorem natToStr_inj (m n : Nat) (h : natToStr m = natToStr n) : m = n := by
  have hd : natToDigits m = natToDigits n := by
    have := congrArg String.data h
    simpa [natToStr] using this
  have := congrArg digitsToNat hd
  rwa [digitsToNat_natToDigits, digitsToNat_natToDigits] at this

/-- The numeric value of the decimal string of `n` is `n`. -/
theorem keyVal_natToStr (n : Nat) : keyVal (natToStr n) = n := by
  simp [keyVal, natToStr, digitsToNat_natToDigits]

/-- A decimal string passes the `/^\\d+$/` test. -/
theorem isDigits_natToStr (n : Nat) : isDigits (natToStr n) = true := by
  simp [isDigits, natToStr, natToDigits_ne_nil]
  have := natToDigits_all_digits n
  simpa [List.all_eq_true] using this

/-- Leading digit of a multi-digit decimal representation. -/
theorem natToDigits_head (n : Nat) (h : ¬n < 10) :
    (natToDigits n).head? = (natToDigits (n / 10)).head? := by
  rw [natToDigits, dif_neg h]
  cases hx : natToDigits (n / 10) with
  | nil => exact absurd hx (natToDigits_ne_nil _)
  | cons a b => simp

/-- The decimal representation of a non-zero number has no leading zero. -/
theorem natToDigits_no_leading_zero (n : Nat) (hn : n ≠ 0) :
    (natToDigits n).head? ≠ some '0' := by
  induction n using Nat.strong_induction_on with
  | _ n ih =>
    by_cases h : n < 10
    · rw [natToDigits, dif_pos h]
      have : ∀ m, m < 10 → m ≠ 0 → (([Char.ofNat (48 + m)] : List Char).head? ≠ some '0') := by
        intro m hm hm0
        interval_cases m <;> simp_all
      exact this n h hn
    · rw [natToDigits_head n h]
      exact ih (n / 10) (Nat.div_lt_self (by omega) (by decide)) (by omega)

/-- The decimal string of any number below 2^32 - 1 is a canonical array index. -/
theorem isArrayIndexStr_natToStr (n : Nat) (h : n < 4294967295) :
    isArrayIndexStr (natToStr n) = true := by
  have hall := natToDigits_all_digits n
  have hne := natToDigits_ne_nil n
  simp [isArrayIndexStr, natToStr]
  refine ⟨⟨⟨hne, by simpa [List.all_eq_true] using hall⟩, ?_⟩, ?_⟩
  · by_cases hn : n = 0
    · subst hn
      left
      rw [natToDigits]
      decide
    · right
      exact natToDigits_no_leading_zero n hn
  · rwa [digitsToNat_natToDigits]

/-- Splitting on a character absent from the string yields the whole string. -/
theorem splitSub_single_nosep (c : Char) (p : List Char) (h : c ∉ p) :
    splitSub [c] p = [p] := by
  induction p with
  | nil => rw [splitSub]
  | cons a p2 ih =>
    have ha : a ≠ c := fun he => h (he ▸ List.mem_cons_self a p2)
    have hnp : ¬(([c] : List Char) ≠ [] ∧ ([c] : List Char).isPrefixOf (a :: p2) = true) := by
      intro ⟨_, hp⟩
      simp [List.isPrefixOf] at hp
      exact ha hp.symm
    have hp2 : c ∉ p2 := fun hm => h (List.mem_cons_of_mem a hm)
    rw [splitSub, dif_neg hnp, ih hp2]

/-- Splitting peels the piece before the first separator occurrence. -/
theorem splitSub_single_sep (c : Char) (p t : List Char) (h : c ∉ p) :
    splitSub [c] (p ++ c :: t) = p :: splitSub [c] t := by
  induction p with
  | nil =>
    have hpre : (([c] : List Char) ≠ [] ∧ ([c] : List Char).isPrefixOf (c :: t) = true) := by
      simp [List.isPrefixOf]
    rw [List.nil_append, splitSub, dif_pos hpre]
    simp
  | cons a p2 ih =>
    have ha : a ≠ c := fun he => h (he ▸ List.mem_cons_self a p2)
    have hp2 : c ∉ p2 := fun hm => h (List.mem_cons_of_mem a hm)
    have hnp : ¬(([c] : List Char) ≠ [] ∧
        ([c] : List Char).isPrefixOf (a :: (p2 ++ c :: t)) = true) := by
      intro ⟨_, hp⟩
      simp [List.isPrefixOf] at hp
      exact ha hp.symm
    rw [List.cons_append, splitSub, dif_neg hnp, ih hp2]

/-- Splitting on a single character is a left inverse of joining with it. -/
theorem splitSub_single_join (c : Char) (pieces : List (List Char)) (hne : pieces ≠ [])
    (h : ∀ p ∈ pieces, c ∉ p) :
    splitSub [c] (intercalateChars [c] pieces) = pieces := by
  induction pieces with
  | nil => exact absurd rfl hne
  | cons p rest ih =>
    cases rest with
    | nil =>
      show splitSub [c] p = [p]
      exact splitSub_single_nosep c p (h p (List.mem_cons_self p []))
    | cons q rest2 =>
      show splitSub [c] (p ++ [c] ++ intercalateChars [c] (q :: rest2)) = _
      rw [List.append_assoc, List.singleton_append]
      rw [splitSub_single_sep c p _ (h p (List.mem_cons_self p _))]
      rw [ih (by simp) (fun r hr => h r (List.mem_cons_of_mem p hr))]

/-- Appending to a non-empty string keeps it non-empty. -/
theorem append_ne_empty (a b : String) (h : a ≠ "") : a ++ b ≠ "" := by
  intro he
  apply h
  apply String.ext
  have := congrArg String.data he
  rw [String.data_append] at this
  have hd := List.append_eq_nil.mp this
  exact hd.1

/-- Once the accumulated path is non-empty, `childKey` is plain join. -/
theorem foldl_childKey_join (d : String) (rest : List String) :
    ∀ acc : String, acc ≠ "" →
      rest.foldl (fun a s => childKey a d s) acc = rest.foldl (fun a t => a ++ d ++ t) acc := by
  induction rest with
  | nil => intro acc _; rfl
  | cons t rest2 ih =>
    intro acc hacc
    rw [List.foldl_cons, List.foldl_cons]
    have hck : childKey acc d t = acc ++ d ++ t := by
      simp [childKey, hacc]
    rw [hck]
    refine ih (acc ++ d ++ t) ?_
    rw [String.append_assoc]
    exact append_ne_empty acc (d ++ t) hacc

/-- The accumulated path of a non-degenerate step list is the delimiter join. -/
theorem pathOf_eq_joinSteps (d s1 : String) (rest : List String) (h1 : s1 ≠ "") :
    pathOf "" d (s1 :: rest) = joinSteps d (s1 :: rest) := by
  show (s1 :: rest).foldl (fun a s => childKey a d s) "" = _
  rw [List.foldl_cons]
  have hck : childKey "" d s1 = s1 := by simp [childKey]
  rw [hck]
  exact foldl_childKey_join d rest s1 h1

/-- Splitting the join of delimiter-free, non-empty steps restores the steps. -/
theorem joinSteps_split_id (dc : Char) (steps : List String) (hne : steps ≠ [])
    (h : ∀ s ∈ steps, dc ∉ s.data) :
    splitKey (joinSteps (String.mk [dc]) steps) (String.mk [dc]) = steps := by
  have hmap : steps = (steps.map String.data).map String.mk := by
    rw [List.map_map]
    conv_lhs => rw [← List.map_id steps]
    apply List.map_congr_left
    intro s _
    rfl
  have key : splitSub (String.mk [dc]).data (joinSteps (String.mk [dc]) steps).data
      = steps.map String.data := by
    conv_lhs => rw [hmap]
    rw [joinSteps_data]
    refine splitSub_single_join dc _ (by simpa using hne) ?_
    intro p hp
    obtain ⟨s, hs, he⟩ := List.mem_map.mp hp
    rw [← he]
    exact h s hs
  rw [splitKey_eq_map, key, ← hmap]

/-- The entry loop is the step-list loop after key splitting. -/
theorem placeLoop_eq_placeSteps (l : List (String × JsonValue)) (d : String) (acc : SVal) :
    placeLoop l d acc = placeSteps (l.map (fun kv => (splitKey kv.1 d, kv.2))) acc := by
  induction l generalizing acc with
  | nil => rfl
  | cons kv rest ih =>
    show placeLoop (kv :: rest) d acc = _
    rw [placeLoop]
    cases hpe : placeEntry acc (splitKey kv.1 d) kv.2 with
    | ok acc2 =>
      simp [placeSteps, hpe, ih acc2]
    | error e =>
      simp [placeSteps, hpe]

/-- The placement loop processes a concatenation left to right, stopping at the first error. -/
theorem placeSteps_append (A B : List (List String × JsonValue)) (acc : SVal) :
    placeSteps (A ++ B) acc =
      match placeSteps A acc with
      | .ok acc2 => placeSteps B acc2
      | .error e => .error e := by
  induction A generalizing acc with
  | nil => simp [placeSteps]
  | cons pv rest ih =>
    rw [List.cons_append]
    show placeSteps (pv :: (rest ++ B)) acc = _
    rw [placeSteps]
    cases hpe : placeEntry acc pv.1 pv.2 with
    | ok acc2 =>
      simp [placeSteps, hpe, ih acc2]
    | error e => simp [placeSteps, hpe]

/-- A missing key is distinct from every stored key. -/
theorem jsGet_none_forall (es : List (String × α)) (k : String) (h : jsGet es k = none) :
    ∀ kv ∈ es, kv.1 ≠ k := by
  intro kv hkv
  rw [jsGet] at h
  cases hf : List.find? (fun kv => decide (kv.1 = k)) es with
  | some x =>
    rw [hf] at h
    simp at h
  | none =>
    have := List.find?_eq_none.mp hf kv hkv
    simpa using this

/-- Assigning a missing key appends the new property. -/
theorem jsSet_of_none (es : List (String × α)) (k : String) (v : α)
    (h : jsGet es k = none) :
    jsSet es k v = es ++ [(k, v)] :=
  jsSet_fresh es k v (jsGet_none_forall es k h)

/-- Re-assigning the key just appended overwrites the appended property. -/
theorem jsSet_append_last (es : List (String × α)) (k : String) (v w : α)
    (h : jsGet es k = none) :
    jsSet (es ++ [(k, v)]) k w = es ++ [(k, w)] := by
  have hall := jsGet_none_forall es k h
  have hany : (es ++ [(k, v)]).any (fun kv => kv.1 = k) = true := by
    simp
  rw [jsSet, if_pos hany, List.map_append]
  congr 1
  · conv_rhs => rw [← List.map_id es]
    apply List.map_congr_left
    intro kv hkv
    simp [hall kv hkv]
  · simp

/-- A key no entry carries is missing. -/
theorem jsGet_none_of_any_false (es : List (String × α)) (k : String)
    (h : es.any (fun kv => kv.1 = k) = false) : jsGet es k = none := by
  rw [jsGet]
  have : List.find? (fun kv => decide (kv.1 = k)) es = none := by
    rw [List.find?_eq_none]
    intro kv hkv
    have := List.any_eq_false.mp h kv hkv
    simpa using this
  rw [this]
  rfl

/-- Assigning a key twice keeps only the second value. -/
theorem jsSet_jsSet (es : List (String × α)) (k : String) (v w : α) :
    jsSet (jsSet es k v) k w = jsSet es k w := by
  by_cases hany : es.any (fun kv => kv.1 = k) = true
  · have h1 : jsSet es k v = es.map (fun kv => if kv.1 = k then (k, v) else kv) := by
      rw [jsSet, if_pos hany]
    have hany2 : (es.map (fun kv => if kv.1 = k then (k, v) else kv)).any
        (fun kv => kv.1 = k) = true := by
      rw [List.any_map]
      rw [List.any_eq_true] at hany ⊢
      obtain ⟨kv, hkv, hp⟩ := hany
      refine ⟨kv, hkv, ?_⟩
      simp at hp
      simp [Function.comp, hp]
    rw [h1, jsSet, if_pos hany2, jsSet, if_pos hany, List.map_map]
    apply List.map_congr_left
    intro kv _
    by_cases hkv : kv.1 = k <;> simp [Function.comp, hkv]
  · have hfalse : es.any (fun kv => kv.1 = k) = false := by
      cases h2 : es.any (fun kv => kv.1 = k) with
      | true => exact absurd h2 hany
      | false => rfl
    have hnone : jsGet es k = none := jsGet_none_of_any_false es k hfalse
    rw [jsSet_of_none es k v hnone, jsSet_append_last es k v w hnone,
      jsSet_of_none es k w hnone]

/-- A group of entries sharing the first step `k`, with `k` already present, places as the un-prefixed group into the existing child followed by a single update of `k`. -/
theorem placeSteps_descend (k : String) (a : Bool) (L : List (List String × JsonValue)) :
    ∀ (es : List (String × SVal)) (c : SVal), jsGet es k = some c →
      L ≠ [] → (∀ pv ∈ L, pv.1 ≠ []) →
      placeSteps (L.map (fun pv => (k :: pv.1, pv.2))) (.cont a es) =
        match placeSteps L c with
        | .ok c2 => .ok (.cont a (jsSet es k c2))
        | .error e => .error e := by
  induction L with
  | nil =>
    intro es c _ hne _
    exact absurd rfl hne
  | cons pv0 rest ih =>
    intro es c hk _ hall
    obtain ⟨h1, p1, hpv⟩ : ∃ h1 p1, pv0.1 = h1 :: p1 := by
      cases hx : pv0.1 with
      | nil => exact absurd hx (hall pv0 (List.mem_cons_self _ _))
      | cons u w => exact ⟨u, w, rfl⟩
    have hfirst : placeEntry (SVal.cont a es) (k :: pv0.1) pv0.2 =
        match placeEntry c pv0.1 pv0.2 with
        | .ok c2 => .ok (.cont a (jsSet es k c2))
        | .error e => .error e := by
      rw [hpv]
      simp [placeEntry, hk]
    rw [List.map_cons]
    show placeSteps ((k :: pv0.1, pv0.2) :: rest.map (fun pv => (k :: pv.1, pv.2)))
      (SVal.cont a es) = _
    rw [placeSteps]
    simp only [hfirst]
    cases hpe : placeEntry c pv0.1 pv0.2 with
    | error e =>
      have hR : placeSteps (pv0 :: rest) c = .error e := by
        rw [placeSteps, hpe]
      rw [hR]
    | ok c2 =>
      have hR : placeSteps (pv0 :: rest) c = placeSteps rest c2 := by
        rw [placeSteps, hpe]
      rw [hR]
      show placeSteps (rest.map (fun pv => (k :: pv.1, pv.2)))
        (SVal.cont a (jsSet es k c2)) = _
      cases hrest : rest with
      | nil =>
        simp [placeSteps]
      | cons pv1 rest2 =>
        rw [← hrest]
        have hih := ih (jsSet es k c2) c2 (jsGet_jsSet_self es k c2)
          (by rw [hrest]; simp)
          (fun pv hpv2 => hall pv (List.mem_cons_of_mem _ hpv2))
        rw [hih]
        cases hps : placeSteps rest c2 with
        | ok c3 => simp [jsSet_jsSet]
        | error e => simp

/-- A group of entries sharing the fresh first step `k` places as the un-prefixed group into a freshly created child (an array when the following step is numeric, an object otherwise), appended under `k`. -/
theorem placeSteps_group (k : String) (a : Bool) (es : List (String × SVal))
    (hk : jsGet es k = none) (h1 : String) (p1 : List String) (x1 : JsonValue)
    (rest : List (List String × JsonValue)) (hrest : ∀ pv ∈ rest, pv.1 ≠ []) :
    placeSteps (((h1 :: p1, x1) :: rest).map (fun pv => (k :: pv.1, pv.2))) (.cont a es) =
      match placeSteps ((h1 :: p1, x1) :: rest)
          (if isDigits h1 then SVal.cont true [] else SVal.cont false []) with
      | .ok c2 => .ok (.cont a (es ++ [(k, c2)]))
      | .error e => .error e := by
  have hfirst : placeEntry (SVal.cont a es) (k :: h1 :: p1) x1 =
      match placeEntry (if isDigits h1 then SVal.cont true [] else SVal.cont false [])
          (h1 :: p1) x1 with
      | .ok c2 => .ok (.cont a (jsSet es k c2))
      | .error e => .error e := by
    simp [placeEntry, hk]
  rw [List.map_cons]
  show placeSteps ((k :: (h1 :: p1), x1) :: rest.map (fun pv => (k :: pv.1, pv.2)))
    (SVal.cont a es) = _
  rw [placeSteps]
  simp only [hfirst]
  cases hpe : placeEntry (if isDigits h1 then SVal.cont true [] else SVal.cont false [])
      (h1 :: p1) x1 with
  | error e =>
    have hR : placeSteps ((h1 :: p1, x1) :: rest)
        (if isDigits h1 then SVal.cont true [] else SVal.cont false []) = .error e := by
      rw [placeSteps, hpe]
    rw [hR]
  | ok c2 =>
    have hR : placeSteps ((h1 :: p1, x1) :: rest)
        (if isDigits h1 then SVal.cont true [] else SVal.cont false []) =
        placeSteps rest c2 := by
      rw [placeSteps, hpe]
    rw [hR]
    show placeSteps (rest.map (fun pv => (k :: pv.1, pv.2)))
      (SVal.cont a (jsSet es k c2)) = _
    rw [jsSet_of_none es k c2 hk]
    cases hrc : rest with
    | nil => simp [placeSteps]
    | cons pv1 rest2 =>
      rw [← hrc]
      have hget : jsGet (es ++ [(k, c2)]) k = some c2 := by
        rw [← jsSet_of_none es k c2 hk]
        exact jsGet_jsSet_self es k c2
      have hd := placeSteps_descend k a rest (es ++ [(k, c2)]) c2 hget
        (by rw [hrc]; simp) hrest
      rw [hd]
      cases hps : placeSteps rest c2 with
      | ok c3 => simp [jsSet_append_last es k c2 c3 hk]
      | error e => simp

/-- The empty object has no properties. -/
theorem jsGet_nil (k : String) : jsGet ([] : List (String × α)) k = none := rfl

/-- Appending a different key keeps a key missing. -/
theorem jsGet_append_ne (es : List (String × α)) (k k' : String) (v : α)
    (h : jsGet es k = none) (hne : k' ≠ k) : jsGet (es ++ [(k', v)]) k = none := by
  apply jsGet_none_of_any_false
  have hall := jsGet_none_forall es k h
  rw [List.any_append]
  have h1 : es.any (fun kv => kv.1 = k) = false := by
    rw [List.any_eq_false]
    intro kv hkv
    simp [hall kv hkv]
  simp [h1, hne]

/-- Every entry of an object is enumerated by `jsEntries`. -/
theorem mem_jsEntries_rev (x : String × α) (l : List (String × α)) (h : x ∈ l) :
    x ∈ jsEntries l := by
  rw [jsEntries]
  by_cases hi : isArrayIndexStr x.1 = true
  · apply List.mem_append_left
    rw [mem_sortIdx]
    exact List.mem_filter.mpr ⟨h, by simpa using hi⟩
  · apply List.mem_append_right
    refine List.mem_filter.mpr ⟨h, ?_⟩
    simp only [Bool.not_eq_true] at hi
    simp [hi]

/-- Every tree value has at least one pre-order leaf. -/
theorem leaves_ne_nil : ∀ v, leaves v ≠ [] := by
  refine jsonInduction ?_ ?_ ?_ ?_ ?_ ?_
  · simp [leaves]
  · intro b; simp [leaves]
  · intro n; simp [leaves]
  · intro s; simp [leaves]
  · intro xs ih
    cases xs with
    | nil => simp [leaves]
    | cons x xs2 =>
      have hx := ih x (List.mem_cons_self _ _)
      simp only [leaves, leavesArr]
      intro hcontra
      rcases List.append_eq_nil.mp hcontra with ⟨h1, _⟩
      exact hx (List.map_eq_nil_iff.mp h1)
  · intro es ih
    cases es with
    | nil => simp [leaves]
    | cons e es2 =>
      have hmem : e ∈ jsEntries (e :: es2) :=
        mem_jsEntries_rev e _ (List.mem_cons_self _ _)
      simp only [leaves]
      cases hL : jsEntries (e :: es2) with
      | nil => rw [hL] at hmem; simp at hmem
      | cons l1 l2 =>
        have hl1 : l1 ∈ e :: es2 :=
          mem_jsEntries l1 _ (by rw [hL]; exact List.mem_cons_self _ _)
        have hx := ih l1 hl1
        obtain ⟨k1, x1⟩ := l1
        simp only [leavesObj]
        intro hcontra
        rcases List.append_eq_nil.mp hcontra with ⟨h1, _⟩
        exact hx (List.map_eq_nil_iff.mp h1)

/-- Leaf paths of sequence elements start with an index at or beyond the starting index. -/
theorem leavesArr_paths (l : List JsonValue) :
    ∀ (i : Nat), ∀ pv ∈ leavesArr l i, ∃ j p', i ≤ j ∧ pv.1 = natToStr j :: p' := by
  induction l with
  | nil => intro i pv hpv; simp [leavesArr] at hpv
  | cons x xs ih =>
    intro i pv hpv
    simp only [leavesArr] at hpv
    rcases List.mem_append.mp hpv with h1 | h2
    · obtain ⟨q, _, he⟩ := List.mem_map.mp h1
      exact ⟨i, q.1, Nat.le_refl _, by rw [← he]⟩
    · obtain ⟨j, p', hj, he⟩ := ih (i + 1) pv h2
      exact ⟨j, p', by omega, he⟩

/-- Leaf paths of map entries start with one of the map keys. -/
theorem leavesObj_paths (l : List (String × JsonValue)) :
    ∀ pv ∈ leavesObj l, ∃ kv ∈ l, ∃ p', pv.1 = kv.1 :: p' := by
  induction l with
  | nil => intro pv hpv; simp [leavesObj] at hpv
  | cons e rest ih =>
    intro pv hpv
    obtain ⟨k1, x1⟩ := e
    simp only [leavesObj] at hpv
    rcases List.mem_append.mp hpv with h1 | h2
    · obtain ⟨q, _, he⟩ := List.mem_map.mp h1
      exact ⟨(k1, x1), List.mem_cons_self _ _, q.1, by rw [← he]⟩
    · obtain ⟨kv, hkv, p', he⟩ := ih pv h2
      exact ⟨kv, List.mem_cons_of_mem _ hkv, p', he⟩

/-- An object without array-index-like keys enumerates in insertion order. -/
theorem jsEntries_id_of_noIndex (l : List (String × α))
    (h : ∀ kv ∈ l, isArrayIndexStr kv.1 = false) : jsEntries l = l := by
  rw [jsEntries]
  have h1 : l.filter (fun kv => isArrayIndexStr kv.1) = [] := by
    rw [List.filter_eq_nil_iff]
    intro kv hkv
    simp [h kv hkv]
  have h2 : l.filter (fun kv => !isArrayIndexStr kv.1) = l := by
    rw [List.filter_eq_self]
    intro kv hkv
    simp [h kv hkv]
  rw [h1, h2]
  rfl

/-- Elementwise reading of sequence safety. -/
theorem goodArr_mem (dc : Char) (l : List JsonValue) (h : goodArr dc l = true) :
    ∀ x ∈ l, goodVal dc x = true := by
  induction l with
  | nil => intro x hx; simp at hx
  | cons y ys ih =>
    intro x hx
    rw [goodArr, Bool.and_eq_true] at h
    obtain ⟨h1, h2⟩ := h
    rcases List.mem_cons.mp hx with he | hm
    · rw [he]; exact h1
    · exact ih h2 x hm

/-- Entrywise reading of map safety. -/
theorem goodObj_mem (dc : Char) (l : List (String × JsonValue)) (h : goodObj dc l = true) :
    ∀ kv ∈ l, goodKey dc kv.1 = true ∧ goodVal dc kv.2 = true := by
  induction l with
  | nil => intro kv hkv; simp at hkv
  | cons e rest ih =>
    intro kv hkv
    obtain ⟨k1, x1⟩ := e
    rw [goodObj, Bool.and_eq_true, Bool.and_eq_true] at h
    obtain ⟨⟨h1, h2⟩, h3⟩ := h
    rcases List.mem_cons.mp hkv with he | hm
    · rw [he]; exact ⟨h1, h2⟩
    · exact ih h3 kv hm

/-- A safe key is not an all-digit string. -/
theorem goodKey_not_digits (dc : Char) (k : String) (h : goodKey dc k = true) :
    isDigits k = false := by
  rw [goodKey, Bool.and_eq_true, Bool.and_eq_true] at h
  obtain ⟨⟨_, h2⟩, _⟩ := h
  rw [isDigits]
  simp only [Bool.not_eq_true'] at h2
  simp [h2]

/-- A safe key is not an array-index-like property key. -/
theorem goodKey_not_index (dc : Char) (k : String) (h : goodKey dc k = true) :
    isArrayIndexStr k = false := by
  rw [goodKey, Bool.and_eq_true, Bool.and_eq_true] at h
  obtain ⟨⟨_, h2⟩, _⟩ := h
  rw [isArrayIndexStr]
  simp only [Bool.not_eq_true'] at h2
  simp [h2]

/-- A safe key is non-empty. -/
theorem goodKey_ne_empty (dc : Char) (k : String) (h : goodKey dc k = true) :
    k ≠ "" := by
  rw [goodKey, Bool.and_eq_true, Bool.and_eq_true] at h
  obtain ⟨⟨h1, _⟩, _⟩ := h
  intro he
  rw [he] at h1
  simp at h1

/-- A safe key does not contain the delimiter character. -/
theorem goodKey_no_dc (dc : Char) (k : String) (h : goodKey dc k = true) :
    dc ∉ k.data := by
  rw [goodKey, Bool.and_eq_true] at h
  obtain ⟨_, h3⟩ := h
  simpa using h3

/-- Placing the leaves of safe sequence elements into a container with the target indices free appends exactly the index-keyed converted elements. -/
theorem placeSteps_arrLoop (dc : Char) (l : List JsonValue)
    (hP : ∀ x ∈ l, goodVal dc x = true →
      ∀ (k : String) (a : Bool) (es : List (String × SVal)), jsGet es k = none →
        placeSteps ((leaves x).map (fun pv => (k :: pv.1, pv.2))) (.cont a es) =
          .ok (.cont a (es ++ [(k, toSVal x)])))
    (hg : goodArr dc l = true) :
    ∀ (i : Nat) (a : Bool) (es : List (String × SVal)),
      (∀ j, i ≤ j → jsGet es (natToStr j) = none) →
      placeSteps (leavesArr l i) (.cont a es) = .ok (.cont a (es ++ toSValArr l i)) := by
  induction l with
  | nil =>
    intro i a es _
    simp [leavesArr, placeSteps, toSValArr]
  | cons x xs ih =>
    intro i a es hfresh
    rw [goodArr, Bool.and_eq_true] at hg
    obtain ⟨hg1, hg2⟩ := hg
    have hla : leavesArr (x :: xs) i =
        (leaves x).map (fun pv => (natToStr i :: pv.1, pv.2)) ++ leavesArr xs (i + 1) := by
      simp [leavesArr]
    rw [hla, placeSteps_append]
    have h1 := hP x (List.mem_cons_self _ _) hg1 (natToStr i) a es
      (hfresh i (Nat.le_refl _))
    rw [h1]
    show placeSteps (leavesArr xs (i + 1))
      (SVal.cont a (es ++ [(natToStr i, toSVal x)])) = _
    have hfresh2 : ∀ j, i + 1 ≤ j →
        jsGet (es ++ [(natToStr i, toSVal x)]) (natToStr j) = none := by
      intro j hj
      refine jsGet_append_ne es (natToStr j) (natToStr i) (toSVal x)
        (hfresh j (by omega)) ?_
      intro he
      have := natToStr_inj i j he
      omega
    rw [ih (fun y hy => hP y (List.mem_cons_of_mem _ hy)) hg2 (i + 1) a
      (es ++ [(natToStr i, toSVal x)]) hfresh2]
    simp [toSValArr]

/-- Placing the leaves of safe map entries into a container with the keys free appends exactly the converted entries. -/
theorem placeSteps_objLoop (dc : Char) (l : List (String × JsonValue))
    (hP : ∀ kv ∈ l, goodVal dc kv.2 = true →
      ∀ (k : String) (a : Bool) (es : List (String × SVal)), jsGet es k = none →
        placeSteps ((leaves kv.2).map (fun pv => (k :: pv.1, pv.2))) (.cont a es) =
          .ok (.cont a (es ++ [(k, toSVal kv.2)])))
    (hg : goodObj dc l = true) (hnd : (l.map (fun kv => kv.1)).Nodup) :
    ∀ (a : Bool) (es : List (String × SVal)),
      (∀ kv ∈ l, jsGet es kv.1 = none) →
      placeSteps (leavesObj l) (.cont a es) = .ok (.cont a (es ++ toSValObj l)) := by
  induction l with
  | nil =>
    intro a es _
    simp [leavesObj, placeSteps, toSValObj]
  | cons e rest ih =>
    intro a es hfresh
    obtain ⟨k1, x1⟩ := e
    rw [goodObj, Bool.and_eq_true, Bool.and_eq_true] at hg
    obtain ⟨⟨_, hg2⟩, hg3⟩ := hg
    rw [List.map_cons, List.nodup_cons] at hnd
    obtain ⟨hnd1, hnd2⟩ := hnd
    have hlo : leavesObj ((k1, x1) :: rest) =
        (leaves x1).map (fun pv => (k1 :: pv.1, pv.2)) ++ leavesObj rest := by
      simp [leavesObj]
    rw [hlo, placeSteps_append]
    have h1 := hP (k1, x1) (List.mem_cons_self _ _) hg2 k1 a es
      (hfresh (k1, x1) (List.mem_cons_self _ _))
    rw [h1]
    show placeSteps (leavesObj rest) (SVal.cont a (es ++ [(k1, toSVal x1)])) = _
    have hfresh2 : ∀ kv ∈ rest, jsGet (es ++ [(k1, toSVal x1)]) kv.1 = none := by
      intro kv hkv
      refine jsGet_append_ne es kv.1 k1 (toSVal x1)
        (hfresh kv (List.mem_cons_of_mem _ hkv)) ?_
      intro he
      have hmem : kv.1 ∈ rest.map (fun kv => kv.1) := List.mem_map_of_mem _ hkv
      rw [← he] at hmem
      exact hnd1 hmem
    rw [ih (fun kv hkv => hP kv (List.mem_cons_of_mem _ hkv)) hg3 hnd2 a
      (es ++ [(k1, toSVal x1)]) hfresh2]
    simp [toSValObj]

/-- Main reconstruction lemma: placing the `k`-prefixed leaves of a safe value into a container where `k` is free appends exactly `k` bound to the JavaScript reading of the value. -/
theorem placeSteps_build (dc : Char) : ∀ (v : JsonValue), goodVal dc v = true →
    ∀ (k : String) (a : Bool) (es : List (String × SVal)), jsGet es k = none →
      placeSteps ((leaves v).map (fun pv => (k :: pv.1, pv.2))) (.cont a es) =
        .ok (.cont a (es ++ [(k, toSVal v)])) := by
  refine jsonInduction ?_ ?_ ?_ ?_ ?_ ?_
  · intro _ k a es hk
    simp [leaves, placeSteps, placeEntry, jsSet_of_none es k _ hk]
  · intro b _ k a es hk
    simp [leaves, placeSteps, placeEntry, jsSet_of_none es k _ hk]
  · intro n _ k a es hk
    simp [leaves, placeSteps, placeEntry, jsSet_of_none es k _ hk]
  · intro s _ k a es hk
    simp [leaves, placeSteps, placeEntry, jsSet_of_none es k _ hk]
  · intro xs ihP hg k a es hk
    cases xs with
    | nil =>
      simp [leaves, placeSteps, placeEntry, jsSet_of_none es k _ hk]
    | cons x xs2 =>
      rw [goodVal, Bool.and_eq_true] at hg
      obtain ⟨_, hga⟩ := hg
      have hlv : leaves (JsonValue.arr (x :: xs2)) = leavesArr (x :: xs2) 0 := by
        simp [leaves]
      cases hLx : leaves x with
      | nil => exact absurd hLx (leaves_ne_nil x)
      | cons pv0 L0 =>
        have hform : leavesArr (x :: xs2) 0 =
            (natToStr 0 :: pv0.1, pv0.2) ::
              (L0.map (fun pv => (natToStr 0 :: pv.1, pv.2)) ++ leavesArr xs2 1) := by
          simp only [leavesArr]
          rw [hLx]
          simp
        have hrest : ∀ pv ∈ (L0.map (fun pv => (natToStr 0 :: pv.1, pv.2)) ++
            leavesArr xs2 1), pv.1 ≠ [] := by
          intro pv hpv
          rcases List.mem_append.mp hpv with h1 | h2
          · obtain ⟨q, _, he⟩ := List.mem_map.mp h1
            rw [← he]
            simp
          · obtain ⟨j, p', _, he⟩ := leavesArr_paths xs2 1 pv h2
            rw [he]
            simp
        rw [hlv, hform, placeSteps_group k a es hk (natToStr 0) pv0.1 pv0.2 _ hrest]
        simp only [isDigits_natToStr 0, if_true]
        rw [← hform]
        rw [placeSteps_arrLoop dc (x :: xs2) ihP hga 0 true [] (fun j _ => rfl)]
        simp [toSVal]
  · intro es0 ihP hg k a es hk
    cases es0 with
    | nil =>
      simp [leaves, placeSteps, placeEntry, jsSet_of_none es k _ hk]
    | cons e0 rest0 =>
      rw [goodVal, Bool.and_eq_true] at hg
      obtain ⟨hnd, hgo⟩ := hg
      have hnd2 : ((e0 :: rest0).map (fun kv => kv.1)).Nodup := of_decide_eq_true hnd
      have hkeys := goodObj_mem dc _ hgo
      have hnoidx : ∀ kv ∈ (e0 :: rest0), isArrayIndexStr kv.1 = false :=
        fun kv hkv => goodKey_not_index dc kv.1 (hkeys kv hkv).1
      have hje : jsEntries (e0 :: rest0) = e0 :: rest0 :=
        jsEntries_id_of_noIndex _ hnoidx
      obtain ⟨k1, x1⟩ := e0
      have hlv : leaves (JsonValue.obj ((k1, x1) :: rest0)) =
          leavesObj ((k1, x1) :: rest0) := by
        simp only [leaves]
        rw [hje]
      cases hLx : leaves x1 with
      | nil => exact absurd hLx (leaves_ne_nil x1)
      | cons pv0 L0 =>
        have hform : leavesObj ((k1, x1) :: rest0) =
            (k1 :: pv0.1, pv0.2) ::
              (L0.map (fun pv => (k1 :: pv.1, pv.2)) ++ leavesObj rest0) := by
          simp only [leavesObj]
          rw [hLx]
          simp
        have hrest : ∀ pv ∈ (L0.map (fun pv => (k1 :: pv.1, pv.2)) ++
            leavesObj rest0), pv.1 ≠ [] := by
          intro pv hpv
          rcases List.mem_append.mp hpv with h1 | h2
          · obtain ⟨q, _, he⟩ := List.mem_map.mp h1
            rw [← he]
            simp
          · obtain ⟨kv, _, p', he⟩ := leavesObj_paths rest0 pv h2
            rw [he]
            simp
        rw [hlv, hform, placeSteps_group k a es hk k1 pv0.1 pv0.2 _ hrest]
        have hdig : isDigits k1 = false :=
          goodKey_not_digits dc k1 (hkeys (k1, x1) (List.mem_cons_self _ _)).1
        simp only [hdig, Bool.false_eq_true, if_false]
        rw [← hform]
        rw [placeSteps_objLoop dc ((k1, x1) :: rest0) ihP hgo hnd2 false []
          (fun kv _ => rfl)]
        simp [toSVal]

/-- Decimal strings are non-empty. -/
theorem natToStr_ne_empty (j : Nat) : natToStr j ≠ "" := by
  intro he
  have := congrArg String.data he
  simp only [natToStr] at this
  exact natToDigits_ne_nil j this

/-- A non-digit delimiter character never occurs in an index string. -/
theorem dc_not_mem_natToStr (dc : Char) (hdc : dc.isDigit = false) (j : Nat) :
    dc ∉ (natToStr j).data := by
  intro hmem
  have hall := natToDigits_all_digits j
  rw [List.all_eq_true] at hall
  have h2 : dc.isDigit = true := hall dc hmem
  rw [hdc] at h2
  exact absurd h2 (by simp)

/-- With a non-digit delimiter, every step of every leaf path of safe sequence elements is non-empty and delimiter-free. -/
theorem leavesArr_steps_good (dc : Char) (hdc : dc.isDigit = false) (l : List JsonValue)
    (hP : ∀ x ∈ l, goodVal dc x = true →
      ∀ pv ∈ leaves x, ∀ s ∈ pv.1, s ≠ "" ∧ dc ∉ s.data)
    (hg : goodArr dc l = true) :
    ∀ (i : Nat), ∀ pv ∈ leavesArr l i, ∀ s ∈ pv.1, s ≠ "" ∧ dc ∉ s.data := by
  induction l with
  | nil => intro i pv hpv; simp [leavesArr] at hpv
  | cons x xs ih =>
    intro i pv hpv s hs
    rw [goodArr, Bool.and_eq_true] at hg
    obtain ⟨hg1, hg2⟩ := hg
    simp only [leavesArr] at hpv
    rcases List.mem_append.mp hpv with h1 | h2
    · obtain ⟨q, hq, he⟩ := List.mem_map.mp h1
      rw [← he] at hs
      simp only at hs
      rcases List.mem_cons.mp hs with he2 | hm
      · rw [he2]
        exact ⟨natToStr_ne_empty i, dc_not_mem_natToStr dc hdc i⟩
      · exact hP x (List.mem_cons_self _ _) hg1 q hq s hm
    · exact ih (fun y hy => hP y (List.mem_cons_of_mem _ hy)) hg2 (i + 1) pv h2 s hs

/-- Every step of every leaf path of safe map entries is non-empty and delimiter-free. -/
theorem leavesObj_steps_good (dc : Char) (l : List (String × JsonValue))
    (hP : ∀ kv ∈ l, goodVal dc kv.2 = true →
      ∀ pv ∈ leaves kv.2, ∀ s ∈ pv.1, s ≠ "" ∧ dc ∉ s.data)
    (hg : goodObj dc l = true) :
    ∀ pv ∈ leavesObj l, ∀ s ∈ pv.1, s ≠ "" ∧ dc ∉ s.data := by
  induction l with
  | nil => intro pv hpv; simp [leavesObj] at hpv
  | cons e rest ih =>
    intro pv hpv s hs
    obtain ⟨k1, x1⟩ := e
    rw [goodObj, Bool.and_eq_true, Bool.and_eq_true] at hg
    obtain ⟨⟨hk1, hx1⟩, hg3⟩ := hg
    simp only [leavesObj] at hpv
    rcases List.mem_append.mp hpv with h1 | h2
    · obtain ⟨q, hq, he⟩ := List.mem_map.mp h1
      rw [← he] at hs
      simp only at hs
      rcases List.mem_cons.mp hs with he2 | hm
      · rw [he2]
        exact ⟨goodKey_ne_empty dc k1 hk1, goodKey_no_dc dc k1 hk1⟩
      · exact hP (k1, x1) (List.mem_cons_self _ _) hx1 q hq s hm
    · exact ih (fun kv hkv => hP kv (List.mem_cons_of_mem _ hkv)) hg3 pv h2 s hs

/-- With a non-digit delimiter, every step of every leaf path of a safe value is non-empty and delimiter-free. -/
theorem leaves_steps_good (dc : Char) (hdc : dc.isDigit = false) :
    ∀ (v : JsonValue), goodVal dc v = true →
      ∀ pv ∈ leaves v, ∀ s ∈ pv.1, s ≠ "" ∧ dc ∉ s.data := by
  refine jsonInduction ?_ ?_ ?_ ?_ ?_ ?_
  · intro _ pv hpv s hs
    simp [leaves] at hpv
    rw [hpv] at hs
    simp at hs
  · intro b _ pv hpv s hs
    simp [leaves] at hpv
    rw [hpv] at hs
    simp at hs
  · intro n _ pv hpv s hs
    simp [leaves] at hpv
    rw [hpv] at hs
    simp at hs
  · intro t _ pv hpv s hs
    simp [leaves] at hpv
    rw [hpv] at hs
    simp at hs
  · intro xs ih hg pv hpv s hs
    cases xs with
    | nil =>
      simp [leaves] at hpv
      rw [hpv] at hs
      simp at hs
    | cons x xs2 =>
      rw [goodVal, Bool.and_eq_true] at hg
      obtain ⟨_, hga⟩ := hg
      simp only [leaves] at hpv
      exact leavesArr_steps_good dc hdc (x :: xs2) ih hga 0 pv hpv s hs
  · intro es ih hg pv hpv s hs
    cases es with
    | nil =>
      simp [leaves] at hpv
      rw [hpv] at hs
      simp at hs
    | cons e es2 =>
      rw [goodVal, Bool.and_eq_true] at hg
      obtain ⟨_, hgo⟩ := hg
      have hnoidx : ∀ kv ∈ (e :: es2), isArrayIndexStr kv.1 = false :=
        fun kv hkv => goodKey_not_index dc kv.1 (goodObj_mem dc _ hgo kv hkv).1
      simp only [leaves] at hpv
      rw [jsEntries_id_of_noIndex _ hnoidx] at hpv
      exact leavesObj_steps_good dc (e :: es2) ih hgo pv hpv s hs

/-- Leaf step lists of sequence elements are pairwise distinct. -/
theorem leavesArr_nodup (l : List JsonValue)
    (hP : ∀ x ∈ l, ((leaves x).map (fun pv => pv.1)).Nodup) :
    ∀ (i : Nat), ((leavesArr l i).map (fun pv => pv.1)).Nodup := by
  induction l with
  | nil => intro i; simp [leavesArr]
  | cons x xs ih =>
    intro i
    simp only [leavesArr, List.map_append, List.map_map]
    refine List.Nodup.append ?_ (by simpa using ih (fun y hy => hP y (List.mem_cons_of_mem _ hy)) (i + 1)) ?_
    · have h1 : ((leaves x).map ((fun pv => pv.1) ∘ fun pv => (natToStr i :: pv.1, pv.2)))
          = ((leaves x).map (fun pv => pv.1)).map (fun p => natToStr i :: p) := by
        simp [List.map_map]
      rw [h1]
      refine List.Nodup.map ?_ (hP x (List.mem_cons_self _ _))
      intro p q h
      simpa using h
    · intro a ha hb
      obtain ⟨q, _, he⟩ := List.mem_map.mp ha
      obtain ⟨pv, hpv, he2⟩ := List.mem_map.mp hb
      obtain ⟨j, p', hj, he3⟩ := leavesArr_paths xs (i + 1) pv hpv
      rw [← he2, he3] at he
      simp only [Function.comp] at he
      have hhead : natToStr i = natToStr j := by
        have := congrArg (fun l => List.head? l) he
        simpa using this
      have := natToStr_inj i j hhead
      omega

/-- Leaf step lists of map entries with distinct keys are pairwise distinct. -/
theorem leavesObj_nodup (l : List (String × JsonValue))
    (hP : ∀ kv ∈ l, ((leaves kv.2).map (fun pv => pv.1)).Nodup)
    (hnd : (l.map (fun kv => kv.1)).Nodup) :
    ((leavesObj l).map (fun pv => pv.1)).Nodup := by
  induction l with
  | nil => simp [leavesObj]
  | cons e rest ih =>
    obtain ⟨k1, x1⟩ := e
    rw [List.map_cons, List.nodup_cons] at hnd
    obtain ⟨hnd1, hnd2⟩ := hnd
    simp only [leavesObj, List.map_append, List.map_map]
    refine List.Nodup.append ?_ (by simpa using ih (fun kv hkv => hP kv (List.mem_cons_of_mem _ hkv)) hnd2) ?_
    · have h1 : ((leaves x1).map ((fun pv => pv.1) ∘ fun pv => (k1 :: pv.1, pv.2)))
          = ((leaves x1).map (fun pv => pv.1)).map (fun p => k1 :: p) := by
        simp [List.map_map]
      rw [h1]
      refine List.Nodup.map ?_ (hP (k1, x1) (List.mem_cons_self _ _))
      intro p q h
      simpa using h
    · intro a ha hb
      obtain ⟨q, _, he⟩ := List.mem_map.mp ha
      obtain ⟨pv, hpv, he2⟩ := List.mem_map.mp hb
      obtain ⟨kv, hkv, p', he3⟩ := leavesObj_paths rest pv hpv
      rw [← he2, he3] at he
      simp only [Function.comp] at he
      have hhead : k1 = kv.1 := by
        have := congrArg (fun l => List.head? l) he
        simpa using this
      have hmem : kv.1 ∈ rest.map (fun kv => kv.1) := List.mem_map_of_mem _ hkv
      rw [← hhead] at hmem
      exact hnd1 hmem

/-- Leaf step lists of a safe value are pairwise distinct. -/
theorem leaves_nodup (dc : Char) :
    ∀ (v : JsonValue), goodVal dc v = true →
      ((leaves v).map (fun pv => pv.1)).Nodup := by
  refine jsonInduction ?_ ?_ ?_ ?_ ?_ ?_
  · intro _; simp [leaves]
  · intro b _; simp [leaves]
  · intro n _; simp [leaves]
  · intro s _; simp [leaves]
  · intro xs ih hg
    cases xs with
    | nil => simp [leaves]
    | cons x xs2 =>
      rw [goodVal, Bool.and_eq_true] at hg
      obtain ⟨_, hga⟩ := hg
      simp only [leaves]
      exact leavesArr_nodup (x :: xs2)
        (fun y hy => ih y hy (goodArr_mem dc _ hga y hy)) 0
  · intro es ih hg
    cases es with
    | nil => simp [leaves]
    | cons e es2 =>
      rw [goodVal, Bool.and_eq_true] at hg
      obtain ⟨hnd, hgo⟩ := hg
      have hnoidx : ∀ kv ∈ (e :: es2), isArrayIndexStr kv.1 = false :=
        fun kv hkv => goodKey_not_index dc kv.1 (goodObj_mem dc _ hgo kv hkv).1
      simp only [leaves]
      rw [jsEntries_id_of_noIndex _ hnoidx]
      exact leavesObj_nodup (e :: es2)
        (fun kv hkv => ih kv hkv (goodObj_mem dc _ hgo kv hkv).2)
        (of_decide_eq_true hnd)

/-- Conversion to staging entries keeps the keys. -/
theorem toSValObj_keys (l : List (String × JsonValue)) :
    (toSValObj l).map (fun kv => kv.1) = l.map (fun kv => kv.1) := by
  induction l with
  | nil => simp [toSValObj]
  | cons e rest ih =>
    obtain ⟨k1, x1⟩ := e
    simp only [toSValObj, List.map_cons]
    rw [ih]

/-- A staging entry key is one of the source keys. -/
theorem toSValObj_mem_key (l : List (String × JsonValue)) (kv : String × SVal)
    (h : kv ∈ toSValObj l) : kv.1 ∈ l.map (fun kv => kv.1) := by
  rw [← toSValObj_keys]
  exact List.mem_map_of_mem _ h

/-- Pointwise-fixed children make the entry conversion the identity. -/
theorem convertEntries_fix (l : List (String × JsonValue))
    (h : ∀ kv ∈ l, maybeConvertToArray (toSVal kv.2) = toSVal kv.2) :
    convertEntries (toSValObj l) = toSValObj l := by
  induction l with
  | nil => simp [toSValObj, convertEntries]
  | cons e rest ih =>
    obtain ⟨k1, x1⟩ := e
    simp only [toSValObj, convertEntries]
    rw [h (k1, x1) (List.mem_cons_self _ _), ih (fun kv hkv => h kv (List.mem_cons_of_mem _ hkv))]

/-- The array-conversion post-pass is the identity on the JavaScript reading of a safe value. -/
theorem conv_fix (dc : Char) : ∀ (v : JsonValue), goodVal dc v = true →
    maybeConvertToArray (toSVal v) = toSVal v := by
  refine jsonInduction ?_ ?_ ?_ ?_ ?_ ?_
  · intro _; exact conv_toSVal_scalar JsonValue.null rfl
  · intro b _; exact conv_toSVal_scalar (JsonValue.bool b) rfl
  · intro n _; exact conv_toSVal_scalar (JsonValue.num n) rfl
  · intro s _; exact conv_toSVal_scalar (JsonValue.str s) rfl
  · intro xs _ _
    simp [toSVal, maybeConvertToArray]
  · intro es ih hg
    rw [goodVal, Bool.and_eq_true] at hg
    obtain ⟨_, hgo⟩ := hg
    have hce : convertEntries (toSValObj es) = toSValObj es :=
      convertEntries_fix es
        (fun kv hkv => ih kv hkv (goodObj_mem dc _ hgo kv hkv).2)
    have hnoidx : ∀ kv ∈ toSValObj es, isArrayIndexStr kv.1 = false := by
      intro kv hkv
      have hk := toSValObj_mem_key es kv hkv
      obtain ⟨kv0, hkv0, he⟩ := List.mem_map.mp hk
      rw [← he]
      exact goodKey_not_index dc kv0.1 (goodObj_mem dc _ hgo kv0 hkv0).1
    have hje : jsEntries (toSValObj es) = toSValObj es :=
      jsEntries_id_of_noIndex _ hnoidx
    have hts : toSVal (JsonValue.obj es) = SVal.cont false (toSValObj es) := by
      simp [toSVal]
    rw [hts, maybeConvertToArray]
    rw [hce, hje, toSValObj_keys]
    cases es with
    | nil => simp [toSValObj, hce]
    | cons e rest =>
      obtain ⟨k1, x1⟩ := e
      have hdig : isDigits k1 = false :=
        goodKey_not_digits dc k1 (goodObj_mem dc _ hgo (k1, x1) (List.mem_cons_self _ _)).1
      have h1 : ((((k1, x1) :: rest).map (fun kv => kv.1)).all isDigits) = false := by
        rw [List.all_eq_false]
        refine ⟨k1, by simp, ?_⟩
        simp [hdig]
      have hcond : (!((((k1, x1) :: rest).map (fun kv => kv.1)).isEmpty) &&
          ((((k1, x1) :: rest).map (fun kv => kv.1)).all isDigits)) = false := by
        rw [h1, Bool.and_false]
      simp only [hcond, Bool.false_eq_true, if_false]

/-- Property read at the head key. -/
theorem jsGet_cons_self (k : String) (v : α) (rest : List (String × α)) :
    jsGet ((k, v) :: rest) k = some v := by
  simp [jsGet]

/-- Property read skips a different head key. -/
theorem jsGet_cons_ne (k' k : String) (v : α) (rest : List (String × α))
    (h : k' ≠ k) : jsGet ((k', v) :: rest) k = jsGet rest k := by
  simp [jsGet, List.find?_cons_of_neg, h]

/-- Reading converted map entries back with pointwise-inverse children restores the entries. -/
theorem toJsonEntries_toSValObj (l : List (String × JsonValue))
    (h : ∀ kv ∈ l, toJson (toSVal kv.2) = kv.2) :
    toJsonEntries (toSValObj l) = l := by
  induction l with
  | nil => simp [toSValObj, toJsonEntries]
  | cons e rest ih =>
    obtain ⟨k1, x1⟩ := e
    simp only [toSValObj, toJsonEntries]
    rw [h (k1, x1) (List.mem_cons_self _ _),
      ih (fun kv hkv => h kv (List.mem_cons_of_mem _ hkv))]

/-- Reading an index property of the converted element list is indexing into the source list. -/
theorem jsGet_tsa (xs : List JsonValue) : ∀ (i j : Nat), i ≤ j →
    jsGet (toJsonEntries (toSValArr xs i)) (natToStr j) =
      (xs[j - i]?).map (fun x => toJson (toSVal x)) := by
  induction xs with
  | nil =>
    intro i j _
    simp [toSValArr, toJsonEntries, jsGet]
  | cons x t ih =>
    intro i j hij
    have hform : toJsonEntries (toSValArr (x :: t) i) =
        (natToStr i, toJson (toSVal x)) :: toJsonEntries (toSValArr t (i + 1)) := by
      simp [toSValArr, toJsonEntries]
    rw [hform]
    by_cases hji : j = i
    · subst hji
      rw [jsGet_cons_self]
      simp
    · have hlt : i < j := Nat.lt_of_le_of_ne hij (fun he => hji he.symm)
      have hne : natToStr i ≠ natToStr j := fun he => hji (natToStr_inj i j he).symm
      rw [jsGet_cons_ne _ _ _ _ hne]
      rw [ih (i + 1) j (by omega)]
      have hidx : j - i = (j - (i + 1)) + 1 := by omega
      rw [hidx]
      simp

/-- The stringify length scan over the converted element list yields the element count. -/
theorem arrLen_tsa (xs : List JsonValue) : ∀ (i m : Nat), i + xs.length < 4294967295 →
    (toJsonEntries (toSValArr xs i)).foldl
      (fun m kv => if isArrayIndexStr kv.1 then max m (keyVal kv.1 + 1) else m) m =
      if xs.length = 0 then m else max m (i + xs.length) := by
  induction xs with
  | nil =>
    intro i m _
    simp [toSValArr, toJsonEntries]
  | cons x t ih =>
    intro i m hbound
    have hform : toJsonEntries (toSValArr (x :: t) i) =
        (natToStr i, toJson (toSVal x)) :: toJsonEntries (toSValArr t (i + 1)) := by
      simp [toSValArr, toJsonEntries]
    rw [hform, List.foldl_cons]
    have hidx : isArrayIndexStr (natToStr i) = true := by
      refine isArrayIndexStr_natToStr i ?_
      simp at hbound
      omega
    rw [hidx]
    simp only [if_true, keyVal_natToStr]
    rw [ih (i + 1) (max m (i + 1)) (by simp at hbound ⊢; omega)]
    cases t with
    | nil => simp
    | cons y t2 =>
      simp only [List.length_cons]
      have h0 : ¬(t2.length + 1 = 0) := by omega
      have h1 : ¬(t2.length + 1 + 1 = 0) := by omega
      rw [if_neg h0, if_neg h1]
      have : i + 1 + (t2.length + 1) = i + (t2.length + 1 + 1) := by omega
      rw [this]
      omega

/-- The dense element reading of a converted element list with pointwise-inverse elements restores the list. -/
theorem arrElems_tsa (xs : List JsonValue) (hlen : xs.length < 4294967295)
    (h : ∀ x ∈ xs, toJson (toSVal x) = x) :
    arrElems (toJsonEntries (toSValArr xs 0)) = xs := by
  rw [arrElems]
  have hl := arrLen_tsa xs 0 0 (by omega)
  simp only [Nat.zero_add] at hl
  cases hxs : xs with
  | nil =>
    rw [← hxs]
    rw [hl]
    rw [hxs]
    simp
  | cons x0 t0 =>
    rw [← hxs]
    rw [hl]
    have hne : ¬(xs.length = 0) := by rw [hxs]; simp
    rw [if_neg hne]
    have hmax : max 0 xs.length = xs.length := by omega
    rw [hmax]
    refine List.ext_getElem (by simp) ?_
    intro n h1 h2
    simp only [List.getElem_map, List.getElem_range]
    have hget := jsGet_tsa xs 0 n (by omega)
    simp only [Nat.sub_zero] at hget
    have hn : n < xs.length := h2
    rw [List.getElem?_eq_getElem hn] at hget
    rw [Option.map_some'] at hget
    rw [hget]
    exact h xs[n] (List.getElem_mem hn)

/-- Reading the JavaScript form of a safe value back as JSON is the identity. -/
theorem toJson_toSVal (dc : Char) : ∀ (v : JsonValue), goodVal dc v = true →
    toJson (toSVal v) = v := by
  refine jsonInduction ?_ ?_ ?_ ?_ ?_ ?_
  · intro _; exact toJson_toSVal_scalar JsonValue.null rfl
  · intro b _; exact toJson_toSVal_scalar (JsonValue.bool b) rfl
  · intro n _; exact toJson_toSVal_scalar (JsonValue.num n) rfl
  · intro s _; exact toJson_toSVal_scalar (JsonValue.str s) rfl
  · intro xs ih hg
    rw [goodVal, Bool.and_eq_true] at hg
    obtain ⟨hlen, hga⟩ := hg
    have hts : toSVal (JsonValue.arr xs) = SVal.cont true (toSValArr xs 0) := by
      simp [toSVal]
    rw [hts]
    have htj : toJson (SVal.cont true (toSValArr xs 0)) =
        JsonValue.arr (arrElems (toJsonEntries (toSValArr xs 0))) := by
      simp [toJson]
    rw [htj]
    rw [arrElems_tsa xs (of_decide_eq_true hlen)
      (fun x hx => ih x hx (goodArr_mem dc _ hga x hx))]
  · intro es ih hg
    rw [goodVal, Bool.and_eq_true] at hg
    obtain ⟨_, hgo⟩ := hg
    have hts : toSVal (JsonValue.obj es) = SVal.cont false (toSValObj es) := by
      simp [toSVal]
    rw [hts]
    have htj : toJson (SVal.cont false (toSValObj es)) =
        JsonValue.obj (jsEntries (toJsonEntries (toSValObj es))) := by
      simp [toJson]
    rw [htj]
    rw [toJsonEntries_toSValObj es
      (fun kv hkv => ih kv hkv (goodObj_mem dc _ hgo kv hkv).2)]
    have hnoidx : ∀ kv ∈ es, isArrayIndexStr kv.1 = false :=
      fun kv hkv => goodKey_not_index dc kv.1 (goodObj_mem dc _ hgo kv hkv).1
    rw [jsEntries_id_of_noIndex _ hnoidx]

/-- A safe key contains a non-digit character. -/
theorem goodKey_exists_nondigit (dc : Char) (k : String) (h : goodKey dc k = true) :
    ∃ c ∈ k.data, c.isDigit = false := by
  rw [goodKey, Bool.and_eq_true, Bool.and_eq_true] at h
  obtain ⟨⟨_, h2⟩, _⟩ := h
  rw [Bool.not_eq_true'] at h2
  rw [List.all_eq_false] at h2
  obtain ⟨c, hc, hcd⟩ := h2
  exact ⟨c, hc, by simpa using hcd⟩

/-- A string containing a non-digit character is not an array index. -/
theorem isArrayIndexStr_false_of_nondigit (s : String) (c : Char)
    (hc : c ∈ s.data) (hd : c.isDigit = false) : isArrayIndexStr s = false := by
  rw [isArrayIndexStr]
  have h1 : s.data.all Char.isDigit = false := by
    rw [List.all_eq_false]
    exact ⟨c, hc, by simp [hd]⟩
  simp [h1]

/-- The join of a step list starts with the first step. -/
theorem joinSteps_headPrefix (d : String) :
    ∀ (rest : List String) (s1 : String),
      ∃ t, (joinSteps d (s1 :: rest)).data = s1.data ++ t := by
  intro rest
  induction rest with
  | nil =>
    intro s1
    exact ⟨[], by simp [joinSteps]⟩
  | cons r rest2 ih =>
    intro s1
    have hstep : joinSteps d (s1 :: r :: rest2) = joinSteps d ((s1 ++ d ++ r) :: rest2) := by
      simp [joinSteps]
    obtain ⟨t, ht⟩ := ih (s1 ++ d ++ r)
    refine ⟨d.data ++ r.data ++ t, ?_⟩
    rw [hstep, ht]
    simp [String.data_append]

/-- C1 (amended): the round-trip `unflatten (flatten v d) d == v` holds for a
single-character delimiter whose character is not a digit, when the root is a
NON-EMPTY MAP all of whose keys (at every level) are non-empty, not made only
of digits, delimiter-free and pairwise distinct, and every sequence has fewer
than 2^32 - 1 elements.  The claim's full quantification fails: bare root
scalars do not round-trip (see the counterexample), nor do root scalars in
general, empty roots, or maps with all-digit keys (which come back as
sequences). -/
theorem C1_roundTrip_amended (dc : Char) (es : List (String × JsonValue))
    (hdc : dc.isDigit = false) (hne : es ≠ [])
    (hg : goodVal dc (JsonValue.obj es) = true) :
    unflatten (flatten (JsonValue.obj es) (String.mk [dc]) "" []) (String.mk [dc]) =
      .ok (JsonValue.obj es) := by
  obtain ⟨e0, rest0, hes⟩ : ∃ e0 rest0, es = e0 :: rest0 := by
    cases es with
    | nil => exact absurd rfl hne
    | cons a b => exact ⟨a, b, rfl⟩
  subst hes
  have hgv := hg
  rw [goodVal, Bool.and_eq_true] at hg
  obtain ⟨hndk, hgo⟩ := hg
  have hkeys := goodObj_mem dc _ hgo
  have hnoidx : ∀ kv ∈ (e0 :: rest0), isArrayIndexStr kv.1 = false :=
    fun kv hkv => goodKey_not_index dc kv.1 (hkeys kv hkv).1
  have hje : jsEntries (e0 :: rest0) = e0 :: rest0 := jsEntries_id_of_noIndex _ hnoidx
  have hlv : leaves (JsonValue.obj (e0 :: rest0)) = leavesObj (e0 :: rest0) := by
    simp only [leaves]
    rw [hje]
  have hsteps := leaves_steps_good dc hdc _ hgv
  have hpaths : ∀ pv ∈ leaves (JsonValue.obj (e0 :: rest0)),
      ∃ kv ∈ (e0 :: rest0), ∃ p', pv.1 = kv.1 :: p' := by
    intro pv hpv
    rw [hlv] at hpv
    exact leavesObj_paths _ pv hpv
  have hsplit : ∀ pv ∈ leaves (JsonValue.obj (e0 :: rest0)),
      splitKey (pathOf "" (String.mk [dc]) pv.1) (String.mk [dc]) = pv.1 := by
    intro pv hpv
    obtain ⟨kv, hkv, p', hp⟩ := hpaths pv hpv
    have hs1 : kv.1 ≠ "" := by
      refine (hsteps pv hpv kv.1 ?_).1
      rw [hp]
      exact List.mem_cons_self _ _
    rw [hp, pathOf_eq_joinSteps _ _ _ hs1]
    refine joinSteps_split_id dc (kv.1 :: p') (by simp) ?_
    intro s hs
    refine (hsteps pv hpv s ?_).2
    rw [hp]
    exact hs
  have hndp : ((leaves (JsonValue.obj (e0 :: rest0))).map
      (fun pv => pathOf "" (String.mk [dc]) pv.1)).Nodup := by
    have h1 : ((leaves (JsonValue.obj (e0 :: rest0))).map
        (fun pv => pathOf "" (String.mk [dc]) pv.1)) =
        ((leaves (JsonValue.obj (e0 :: rest0))).map (fun pv => pv.1)).map
          (fun p => pathOf "" (String.mk [dc]) p) := by
      simp [List.map_map]
    rw [h1]
    refine List.Nodup.map_on ?_ (leaves_nodup dc _ hgv)
    intro p hp q hq he
    obtain ⟨pv, hpv, hep⟩ := List.mem_map.mp hp
    obtain ⟨qv, hqv, heq⟩ := List.mem_map.mp hq
    subst hep
    subst heq
    calc pv.1 = splitKey (pathOf "" (String.mk [dc]) pv.1) (String.mk [dc]) :=
          (hsplit pv hpv).symm
      _ = splitKey (pathOf "" (String.mk [dc]) qv.1) (String.mk [dc]) := by rw [he]
      _ = qv.1 := hsplit qv hqv
  have hflat : flatten (JsonValue.obj (e0 :: rest0)) (String.mk [dc]) "" [] =
      (leaves (JsonValue.obj (e0 :: rest0))).map
        (fun pv => (pathOf "" (String.mk [dc]) pv.1, pv.2)) := by
    have h2 := flatten_eq_leaves (JsonValue.obj (e0 :: rest0)) (String.mk [dc]) "" []
      (by simpa using hndp)
    simpa using h2
  have hflatidx : ∀ kv ∈ (leaves (JsonValue.obj (e0 :: rest0))).map
      (fun pv => (pathOf "" (String.mk [dc]) pv.1, pv.2)),
      isArrayIndexStr kv.1 = false := by
    intro kv hkv
    obtain ⟨pv, hpv, he⟩ := List.mem_map.mp hkv
    obtain ⟨kv0, hkv0, p', hp⟩ := hpaths pv hpv
    have hkg := (hkeys kv0 hkv0).1
    obtain ⟨c, hc, hcd⟩ := goodKey_exists_nondigit dc kv0.1 hkg
    have hs1 : kv0.1 ≠ "" := goodKey_ne_empty dc kv0.1 hkg
    have hkey : kv.1 = joinSteps (String.mk [dc]) (kv0.1 :: p') := by
      rw [← he]
      show pathOf "" (String.mk [dc]) pv.1 = _
      rw [hp, pathOf_eq_joinSteps _ _ _ hs1]
    obtain ⟨t, ht⟩ := joinSteps_headPrefix (String.mk [dc]) p' kv0.1
    refine isArrayIndexStr_false_of_nondigit kv.1 c ?_ hcd
    rw [hkey, ht]
    exact List.mem_append_left t hc
  have hjef : jsEntries ((leaves (JsonValue.obj (e0 :: rest0))).map
      (fun pv => (pathOf "" (String.mk [dc]) pv.1, pv.2))) =
      (leaves (JsonValue.obj (e0 :: rest0))).map
        (fun pv => (pathOf "" (String.mk [dc]) pv.1, pv.2)) :=
    jsEntries_id_of_noIndex _ hflatidx
  have hmap : ((leaves (JsonValue.obj (e0 :: rest0))).map
      (fun pv => (pathOf "" (String.mk [dc]) pv.1, pv.2))).map
        (fun kv => (splitKey kv.1 (String.mk [dc]), kv.2)) =
      leaves (JsonValue.obj (e0 :: rest0)) := by
    rw [List.map_map]
    have h2 : (leaves (JsonValue.obj (e0 :: rest0))).map
        ((fun kv => (splitKey kv.1 (String.mk [dc]), kv.2)) ∘
          (fun pv => (pathOf "" (String.mk [dc]) pv.1, pv.2))) =
        (leaves (JsonValue.obj (e0 :: rest0))).map id := by
      refine List.map_congr_left ?_
      intro pv hpv
      simp only [Function.comp, id]
      rw [hsplit pv hpv]
    rw [h2, List.map_id]
  have hpa : placeAll ((leaves (JsonValue.obj (e0 :: rest0))).map
      (fun pv => (pathOf "" (String.mk [dc]) pv.1, pv.2))) (String.mk [dc]) =
      .ok (SVal.cont false (toSValObj (e0 :: rest0))) := by
    rw [placeAll, hjef, placeLoop_eq_placeSteps, hmap, hlv]
    have h3 := placeSteps_objLoop dc (e0 :: rest0)
      (fun kv _ hgkv => placeSteps_build dc kv.2 hgkv) hgo
      (of_decide_eq_true hndk) false [] (fun kv _ => rfl)
    simpa using h3
  rw [hflat]
  simp only [unflatten, hpa]
  have hts : toSVal (JsonValue.obj (e0 :: rest0)) =
      SVal.cont false (toSValObj (e0 :: rest0)) := by
    simp [toSVal]
  rw [← hts, conv_fix dc _ hgv, toJson_toSVal dc _ hgv]

/-- Witness for the amended C1 round-trip at the one-entry map `{"a": 1}`
with delimiter `"."`. -/
theorem C1_roundTrip_amended_witness :
    Char.isDigit '.' = false ∧
    ([("a", JsonValue.num 1)] : List (String × JsonValue)) ≠ [] ∧
    goodVal '.' (JsonValue.obj [("a", JsonValue.num 1)]) = true ∧
    unflatten (flatten (JsonValue.obj [("a", JsonValue.num 1)]) (String.mk ['.']) "" [])
        (String.mk ['.']) = .ok (JsonValue.obj [("a", JsonValue.num 1)]) :=
  ⟨by decide, by simp, by simp [goodVal, goodObj, goodKey],
    C1_roundTrip_amended '.' [("a", JsonValue.num 1)] (by decide) (by simp)
      (by simp [goodVal, goodObj, goodKey])⟩
